import Mathlib

/-!
Verification of the low-latency limit order book core (C++17 sources:
include/lob/types.hpp, order.hpp, order_pool.hpp, price_level.hpp,
order_book.hpp, src/order_book.cpp) against its natural-language
specification.

Shallow embedding conventions:
* Machine integers (Price, Quantity, OrderId, counters — all uint64_t,
  order_count uint32_t) are modelled as Nat.  All subtractions performed by
  the code are modelled with Nat truncated subtraction, which agrees with
  uint64_t wraparound exactly when no underflow occurs; every subtraction on
  the code paths covered by the claims is guarded so that no underflow
  occurs.  Counter increments stay far below 2^64 on any input considered.
* std::map price→PriceLevel is modelled as an association list sorted by
  ascending key (its iteration order); std::unordered_map order-id→Order*
  as an association list of (id, side, price) locators.  In the C++ the
  index stores a pointer into the level queue; here the queue entry itself
  is the record and the locator (side, price, id) is the functional
  rendering of that pointer (resting orders never change side or price, so
  the locator never goes stale).
* The intrusive doubly-linked FIFO queue of a price level is a List Order
  with the head being the oldest (front) order.
* The order pool is modelled by its observable counters (capacity,
  free_count, size); which physical slot backs an order is immaterial once
  records are values.  OrderPool::allocate throwing "OrderPool exhausted"
  is modelled by add_order returning none (the book state it returns is
  then the unchanged input, as an exception leaves the object intact).
-/

set_option maxHeartbeats 1000000

namespace LOB

/-- types.hpp: enum class Side. -/
inductive Side where
  | Buy
  | Sell
deriving Repr, DecidableEq

/-- types.hpp: enum class OrderType. -/
inductive OrderType where
  | Limit
  | Market
deriving Repr, DecidableEq

/-- types.hpp: enum class OrderStatus. -/
inductive OrderStatus where
  | New
  | Active
  | PartiallyFilled
  | Filled
  | Cancelled
deriving Repr, DecidableEq

/-- order.hpp: struct Order (intrusive prev/next pointers are represented by
the order's position in its level's queue list). -/
structure Order where
  id : Nat
  price : Nat
  quantity : Nat
  filled_quantity : Nat
  side : Side
  type : OrderType
  status : OrderStatus
  timestamp : Nat
deriving Repr, DecidableEq

/-- order.hpp: Order::remaining() = quantity - filled_quantity (uint64_t). -/
def Order.remaining (o : Order) : Nat := o.quantity - o.filled_quantity

/-- order.hpp: Order::is_filled() = filled_quantity >= quantity. -/
def Order.is_filled (o : Order) : Bool := decide (o.quantity ≤ o.filled_quantity)

/-- order.hpp: struct Trade. -/
structure Trade where
  buy_order_id : Nat
  sell_order_id : Nat
  price : Nat
  quantity : Nat
  timestamp : Nat
deriving Repr, DecidableEq

/-- order_book.hpp: struct OrderResult. -/
structure OrderResult where
  order_id : Nat
  status : OrderStatus
  filled_quantity : Nat
  remaining_quantity : Nat
  trades : List Trade
deriving Repr, DecidableEq

/-- price_level.hpp: struct PriceLevel.  queue lists the orders from head
(oldest, executes first) to tail (newest). -/
structure PriceLevel where
  price : Nat
  total_quantity : Nat
  order_count : Nat
  queue : List Order
deriving Repr, DecidableEq

/-- price_level.hpp: PriceLevel(Price p) constructor. -/
def PriceLevel.emptyAt (p : Nat) : PriceLevel := ⟨p, 0, 0, []⟩

/-- price_level.hpp: PriceLevel::add_order — append at tail, update the
cached aggregates. -/
def PriceLevel.add_order (L : PriceLevel) (o : Order) : PriceLevel :=
  { L with queue := L.queue ++ [o],
           total_quantity := L.total_quantity + o.remaining,
           order_count := L.order_count + 1 }

/-- Unlink the first order with the given id from a queue (pointer-based
unlink of a node known to be in the list). -/
def removeFirstId : List Order → Nat → List Order
  | [], _ => []
  | o :: rest, oid => if o.id = oid then rest else o :: removeFirstId rest oid

/-- price_level.hpp: PriceLevel::remove_order — unlink the node and update
the cached aggregates by the removed order's remaining. -/
def PriceLevel.remove_order (L : PriceLevel) (o : Order) : PriceLevel :=
  { L with queue := removeFirstId L.queue o.id,
           total_quantity := L.total_quantity - o.remaining,
           order_count := L.order_count - 1 }

/-- price_level.hpp: PriceLevel::front — head of the queue. -/
def PriceLevel.front (L : PriceLevel) : Option Order := L.queue.head?

/-- order_pool.hpp: the pool's observable counters. -/
structure OrderPool where
  capacity : Nat
  free_count : Nat
  size : Nat
deriving Repr, DecidableEq

/-- order_pool.hpp: OrderPool(capacity) — all slots free. -/
def OrderPool.init (cap : Nat) : OrderPool := ⟨cap, cap, 0⟩

/-- order_pool.hpp: OrderPool::allocate (success path: pops a free index,
resets the record).  The free_count == 0 throw is handled by the caller
(OrderBook.add_order returns none). -/
def OrderPool.allocate (p : OrderPool) : OrderPool :=
  ⟨p.capacity, p.free_count - 1, p.size + 1⟩

/-- order_pool.hpp: OrderPool::deallocate — pushes the slot back. -/
def OrderPool.deallocate (p : OrderPool) : OrderPool :=
  ⟨p.capacity, p.free_count + 1, p.size - 1⟩

/-- One side of the book: std::map<Price, PriceLevel> as an association
list sorted by ascending price. -/
abbrev Levels := List (Nat × PriceLevel)

/-- std::map::find on a side map. -/
def findLevel : Levels → Nat → Option PriceLevel
  | [], _ => none
  | (p, L) :: rest, price => if p = price then some L else findLevel rest price

/-- Write back a level through the reference obtained from find. -/
def setLevel : Levels → Nat → PriceLevel → Levels
  | [], _, _ => []
  | (p, L) :: rest, price, L1 =>
    if p = price then (p, L1) :: rest else (p, L) :: setLevel rest price L1

/-- std::map::erase by key. -/
def eraseLevel : Levels → Nat → Levels
  | [], _ => []
  | (p, L) :: rest, price => if p = price then rest else (p, L) :: eraseLevel rest price

/-- order_book.cpp OrderBook::insert_into_book:
try_emplace(price, PriceLevel(price)) followed by level.add_order, on a
map kept sorted by ascending price. -/
def insertLevel : Levels → Order → Levels
  | [], o => [(o.price, (PriceLevel.emptyAt o.price).add_order o)]
  | (p, L) :: rest, o =>
    if o.price < p then (o.price, (PriceLevel.emptyAt o.price).add_order o) :: (p, L) :: rest
    else if o.price = p then (p, L.add_order o) :: rest
    else (p, L) :: insertLevel rest o

/-- std::unordered_map<OrderId, Order*>: entries (id, side, price); the
(side, price) locator together with the id plays the role of the stored
pointer into the level queues. -/
abbrev OrderIndex := List (Nat × Side × Nat)

/-- orders_.find(order_id). -/
def lookupIndex : OrderIndex → Nat → Option (Side × Nat)
  | [], _ => none
  | e :: rest, oid => if e.1 = oid then some e.2 else lookupIndex rest oid

/-- orders_.erase(order_id). -/
def eraseIndex : OrderIndex → Nat → OrderIndex
  | [], _ => []
  | e :: rest, oid => if e.1 = oid then eraseIndex rest oid else e :: eraseIndex rest oid

/-- orders_[order_id] = order (operator[] assignment). -/
def insertIndex (m : OrderIndex) (oid : Nat) (v : Side × Nat) : OrderIndex :=
  if (lookupIndex m oid).isSome then
    m.map (fun e => if e.1 = oid then (oid, v) else e)
  else m ++ [(oid, v)]

/-- order_book.cpp OrderBook::execute_trade: the Trade record built for one
execution (buy/sell ids by aggressive side; price is the passive order's
price; timestamp is the book's current timestamp counter). -/
def mkTrade (agg passive : Order) (qty ts : Nat) : Trade :=
  match agg.side with
  | Side.Buy => ⟨agg.id, passive.id, passive.price, qty, ts⟩
  | Side.Sell => ⟨passive.id, agg.id, passive.price, qty, ts⟩

/-- Outcome of the inner matching loop over one level's queue. -/
structure QueueOut where
  agg : Order
  queue : List Order
  total_quantity : Nat
  order_count : Nat
  trades : List Trade
  removed : List Nat
deriving Repr, DecidableEq

/-- order_book.cpp: the inner `while (passive && order->remaining() > 0)`
loop of match_against_asks / match_against_bids, walking one level's FIFO
queue.  tot and cnt thread the level's cached total_quantity and
order_count exactly as the code updates them (execute_trade subtracts the
trade quantity from the containing level — queue orders carry the level's
price — and remove_order subtracts the removed order's remaining, zero at
that point, and decrements the count).  removed collects the ids of fully
filled passive orders, which the code erases from the order index and
returns to the pool. -/
def matchQueue (agg : Order) (ts : Nat) (tot cnt : Nat) : List Order → QueueOut
  | [] => ⟨agg, [], tot, cnt, [], []⟩
  | p :: rest =>
    if agg.remaining = 0 then ⟨agg, p :: rest, tot, cnt, [], []⟩
    else
      let qty := min agg.remaining p.remaining
      let agg1 := { agg with filled_quantity := agg.filled_quantity + qty }
      let p1 := { p with filled_quantity := p.filled_quantity + qty }
      let tr := mkTrade agg p qty ts
      if p1.is_filled then
        let out := matchQueue agg1 ts (tot - qty - p1.remaining) (cnt - 1) rest
        ⟨out.agg, out.queue, out.total_quantity, out.order_count,
         tr :: out.trades, p.id :: out.removed⟩
      else
        let out := matchQueue agg1 ts (tot - qty) cnt rest
        ⟨out.agg, p1 :: out.queue, out.total_quantity, out.order_count,
         tr :: out.trades, out.removed⟩

/-- Outcome of matching an aggressive order against one side's levels. -/
structure MatchOut where
  agg : Order
  levels : Levels
  trades : List Trade
  removed : List Nat
deriving Repr, DecidableEq

/-- The level-crossability stop test of the outer matching loops:
match_against_asks breaks when a limit buy meets an ask level priced above
its limit; match_against_bids breaks when a limit sell meets a bid level
priced below its limit.  Market orders never stop on price. -/
def crossStop (agg : Order) (levelPrice : Nat) : Bool :=
  match agg.side with
  | Side.Buy => decide (agg.type = OrderType.Limit) && decide (agg.price < levelPrice)
  | Side.Sell => decide (agg.type = OrderType.Limit) && decide (levelPrice < agg.price)

/-- order_book.cpp: the outer `while (it != end && order->remaining() > 0)`
loop of match_against_asks / match_against_bids.  The levels are supplied
in iteration order (asks ascending; bids are fed reversed, i.e. best bid
first), a fully emptied level is erased from the map, and a level left
non-empty is kept with its updated queue and cached aggregates (the loop
then advances; a further level is touched only if the aggressor still has
remaining quantity, mirrored by the leading remaining = 0 test). -/
def matchLevels (agg : Order) (ts : Nat) : Levels → MatchOut
  | [] => ⟨agg, [], [], []⟩
  | (pr, L) :: rest =>
    if agg.remaining = 0 then ⟨agg, (pr, L) :: rest, [], []⟩
    else if crossStop agg pr then ⟨agg, (pr, L) :: rest, [], []⟩
    else
      let q := matchQueue agg ts L.total_quantity L.order_count L.queue
      if q.queue = [] then
        let out := matchLevels q.agg ts rest
        ⟨out.agg, out.levels, q.trades ++ out.trades, q.removed ++ out.removed⟩
      else
        let L1 : PriceLevel :=
          { L with queue := q.queue, total_quantity := q.total_quantity,
                   order_count := q.order_count }
        let out := matchLevels q.agg ts rest
        ⟨out.agg, (pr, L1) :: out.levels, q.trades ++ out.trades, q.removed ++ out.removed⟩

/-- Sum of the quantities of a trade list (total_volume_ accumulation). -/
def sumQty (l : List Trade) : Nat := (l.map Trade.quantity).sum

/-- order_book.hpp: class OrderBook private state. -/
structure OrderBook where
  bids : Levels
  asks : Levels
  orders : OrderIndex
  pool : OrderPool
  next_id : Nat
  timestamp_counter : Nat
  trade_count : Nat
  total_volume : Nat
deriving Repr, DecidableEq

/-- order_book.cpp: OrderBook::OrderBook(pool_capacity). -/
def OrderBook.init (cap : Nat) : OrderBook :=
  ⟨[], [], [], OrderPool.init cap, 0, 0, 0, 0⟩

/-- Outcome of OrderBook::match_order: updated aggressor, both side maps
after matching, the trades produced, and the ids of filled passives. -/
structure MatchResult where
  agg : Order
  bids : Levels
  asks : Levels
  trades : List Trade
  removed : List Nat
deriving Repr, DecidableEq

/-- order_book.cpp OrderBook::match_order: a buy matches against the asks
from lowest price upward; a sell matches against the bids from highest
price downward (reverse iteration over the ascending map; erasing an
emptied best level and restarting at rbegin coincides with continuing,
since every level before the erased one was itself erased). -/
def OrderBook.match_order (b : OrderBook) (order : Order) (ts : Nat) : MatchResult :=
  match order.side with
  | Side.Buy =>
    let out := matchLevels order ts b.asks
    ⟨out.agg, b.bids, out.levels, out.trades, out.removed⟩
  | Side.Sell =>
    let out := matchLevels order ts b.bids.reverse
    ⟨out.agg, out.levels.reverse, b.asks, out.trades, out.removed⟩

/-- order_book.cpp OrderBook::add_order.  Returns none when
OrderPool::allocate throws (pool exhausted); the book component of the
result is then the untouched input state, as the exception propagates out
of add_order before any member is modified. -/
def OrderBook.add_order (b : OrderBook) (side : Side) (type : OrderType)
    (price quantity : Nat) : Option OrderResult × OrderBook :=
  if b.pool.free_count = 0 then (none, b) else
  let pool1 := b.pool.allocate
  let oid := b.next_id + 1
  let ts := b.timestamp_counter + 1
  let order : Order := ⟨oid, price, quantity, 0, side, type, OrderStatus.Active, ts⟩
  let mo := b.match_order order ts
  let orders1 := mo.removed.foldl eraseIndex b.orders
  let pool2 : OrderPool :=
    ⟨pool1.capacity, pool1.free_count + mo.removed.length, pool1.size - mo.removed.length⟩
  let tc1 := b.trade_count + mo.trades.length
  let tv1 := b.total_volume + sumQty mo.trades
  if mo.agg.is_filled then
    (some ⟨oid, OrderStatus.Filled, mo.agg.filled_quantity, 0, mo.trades⟩,
     ⟨mo.bids, mo.asks, orders1, pool2.deallocate, oid, ts, tc1, tv1⟩)
  else if type = OrderType.Limit then
    let order2 :=
      if mo.agg.filled_quantity > 0 then
        { mo.agg with status := OrderStatus.PartiallyFilled }
      else mo.agg
    let bids2 := match side with | Side.Buy => insertLevel mo.bids order2 | Side.Sell => mo.bids
    let asks2 := match side with | Side.Buy => mo.asks | Side.Sell => insertLevel mo.asks order2
    let orders2 := insertIndex orders1 oid (side, price)
    (some ⟨oid, order2.status, order2.filled_quantity, order2.remaining, mo.trades⟩,
     ⟨bids2, asks2, orders2, pool2, oid, ts, tc1, tv1⟩)
  else
    (some ⟨oid, OrderStatus.Cancelled, mo.agg.filled_quantity, mo.agg.remaining, mo.trades⟩,
     ⟨mo.bids, mo.asks, orders1, pool2.deallocate, oid, ts, tc1, tv1⟩)

/-- Find an order record in a queue by id (dereference of the stored
pointer: the first — in reachable states unique — queue node with that id). -/
def findById : List Order → Nat → Option Order
  | [], _ => none
  | o :: rest, oid => if o.id = oid then some o else findById rest oid

/-- order_book.cpp OrderBook::cancel_order. -/
def OrderBook.cancel_order (b : OrderBook) (oid : Nat) : Bool × OrderBook :=
  match lookupIndex b.orders oid with
  | none => (false, b)
  | some sv =>
    let levels := match sv.1 with | Side.Buy => b.bids | Side.Sell => b.asks
    let levels1 :=
      match findLevel levels sv.2 with
      | none => levels
      | some L =>
        match findById L.queue oid with
        | none => levels
        | some o =>
          let L1 := L.remove_order o
          if L1.queue = [] then eraseLevel levels sv.2 else setLevel levels sv.2 L1
    let bids1 := match sv.1 with | Side.Buy => levels1 | Side.Sell => b.bids
    let asks1 := match sv.1 with | Side.Buy => b.asks | Side.Sell => levels1
    (true, { b with bids := bids1, asks := asks1,
                    orders := eraseIndex b.orders oid, pool := b.pool.deallocate })

/-- Dereference the order index: orders_.find(order_id)->second in the C++
resolves to the resting record, which here lives in its level's queue. -/
def OrderBook.findOrder (b : OrderBook) (oid : Nat) : Option Order :=
  match lookupIndex b.orders oid with
  | none => none
  | some sv =>
    let levels := match sv.1 with | Side.Buy => b.bids | Side.Sell => b.asks
    match findLevel levels sv.2 with
    | none => none
    | some L => findById L.queue oid

/-- In-place update of the resting record's total quantity
(order->quantity = new_quantity through the index pointer). -/
def updateQuantityFirst : List Order → Nat → Nat → List Order
  | [], _, _ => []
  | o :: rest, oid, nq =>
    if o.id = oid then { o with quantity := nq } :: rest
    else o :: updateQuantityFirst rest oid nq

/-- order_book.cpp OrderBook::modify_order. -/
def OrderBook.modify_order (b : OrderBook) (oid new_quantity : Nat) : Bool × OrderBook :=
  match b.findOrder oid with
  | none => (false, b)
  | some order =>
    if new_quantity ≤ order.filled_quantity then
      b.cancel_order oid
    else if new_quantity < order.quantity then
      let old_remaining := order.remaining
      let new_remaining := new_quantity - order.filled_quantity
      let levels := match order.side with | Side.Buy => b.bids | Side.Sell => b.asks
      let levels1 :=
        match findLevel levels order.price with
        | none => levels
        | some L =>
          setLevel levels order.price
            { L with queue := updateQuantityFirst L.queue oid new_quantity,
                     total_quantity := L.total_quantity - (old_remaining - new_remaining) }
      let bids1 := match order.side with | Side.Buy => levels1 | Side.Sell => b.bids
      let asks1 := match order.side with | Side.Buy => b.asks | Side.Sell => levels1
      (true, { b with bids := bids1, asks := asks1 })
    else if order.quantity < new_quantity then
      let b1 := (b.cancel_order oid).2
      let b2 := (b1.add_order order.side OrderType.Limit order.price new_quantity).2
      (true, b2)
    else (true, b)

/-- order_book.cpp OrderBook::volume_at_price. -/
def OrderBook.volume_at_price (b : OrderBook) (side : Side) (price : Nat) : Nat :=
  let levels := match side with | Side.Buy => b.bids | Side.Sell => b.asks
  match findLevel levels price with
  | none => 0
  | some L => L.total_quantity

/-- order_book.cpp OrderBook::order_count_at_price. -/
def OrderBook.order_count_at_price (b : OrderBook) (side : Side) (price : Nat) : Nat :=
  let levels := match side with | Side.Buy => b.bids | Side.Sell => b.asks
  match findLevel levels price with
  | none => 0
  | some L => L.order_count

/-- The side map an operation on the given side works on. -/
def OrderBook.sideLevels (b : OrderBook) (s : Side) : Levels :=
  match s with | Side.Buy => b.bids | Side.Sell => b.asks

/-- The opposite-side map an aggressive order on the given side matches
against. -/
def OrderBook.oppLevels (b : OrderBook) (s : Side) : Levels :=
  match s with | Side.Buy => b.asks | Side.Sell => b.bids

/-- The id of the passive (resting) party of a trade, given the side of the
aggressive order. -/
def passiveId (s : Side) (t : Trade) : Nat :=
  match s with
  | Side.Buy => t.sell_order_id
  | Side.Sell => t.buy_order_id

/- ------------------------------------------------------------------ -/
/- Basic lemmas about the matching loops.                              -/
/- ------------------------------------------------------------------ -/

/-- An aggressor with no remaining quantity matches nothing: the outer loop
condition fails at once. -/
theorem matchLevels_zero_rem (agg : Order) (ts : Nat) (cur : Levels)
    (h : agg.remaining = 0) : matchLevels agg ts cur = ⟨agg, cur, [], []⟩ := by
  cases cur with
  | nil => simp [matchLevels]
  | cons e rest => cases e; simp [matchLevels, h]

/-- If every level in iteration order triggers the crossability break, the
matching loop touches nothing. -/
theorem matchLevels_allStop (agg : Order) (ts : Nat) (cur : Levels)
    (h : ∀ e ∈ cur, crossStop agg e.1 = true) :
    matchLevels agg ts cur = ⟨agg, cur, [], []⟩ := by
  cases cur with
  | nil => simp [matchLevels]
  | cons e rest =>
    cases e with
    | mk pr L =>
      by_cases hz : agg.remaining = 0
      · simp [matchLevels, hz]
      · have := h (pr, L) (by simp)
        simp [matchLevels, hz, this]

/-- Matching never changes the aggressor's side. -/
theorem matchQueue_agg_side (agg : Order) (ts tot cnt : Nat) (q : List Order) :
    (matchQueue agg ts tot cnt q).agg.side = agg.side := by
  induction q generalizing agg tot cnt with
  | nil => simp [matchQueue]
  | cons p rest ih =>
    simp only [matchQueue]
    split
    · rfl
    · split <;> simp [ih]

/-- Matching never changes the aggressor's side (outer loop). -/
theorem matchLevels_agg_side (agg : Order) (ts : Nat) (cur : Levels) :
    (matchLevels agg ts cur).agg.side = agg.side := by
  induction cur generalizing agg with
  | nil => simp [matchLevels]
  | cons e rest ih =>
    cases e with
    | mk pr L =>
      simp only [matchLevels]
      split
      · rfl
      · split
        · rfl
        · split <;> simp [ih, matchQueue_agg_side]

/-- Allocate followed by deallocate restores the pool counters. -/
theorem pool_alloc_dealloc (p : OrderPool) (h : p.free_count ≠ 0) :
    p.allocate.deallocate = p := by
  cases p with
  | mk c f s =>
    simp only [ne_eq] at h
    have h1 : f - 1 + 1 = f := by omega
    have h2 : s + 1 - 1 = s := by omega
    simp [OrderPool.allocate, OrderPool.deallocate, h1, h2]

/- ------------------------------------------------------------------ -/
/- Claim C4.                                                           -/
/- ------------------------------------------------------------------ -/

/-- Claim C4: when the pool has no free slot, add_order fails with the
PoolExhausted error (modelled by the none result, the thrown
std::runtime_error) and leaves the entire book state — side maps, order
index, pool, next-id counter, timestamp counter, trade count, total
volume — unchanged. -/
theorem claim_C4_pool_exhausted_state_unchanged (b : OrderBook) (side : Side)
    (type : OrderType) (price quantity : Nat) (h : b.pool.free_count = 0) :
    b.add_order side type price quantity = (none, b) := by
  simp [OrderBook.add_order, h]

/-- Witness for C4 at a concrete zero-capacity book. -/
theorem claim_C4_witness :
    (OrderBook.init 0).pool.free_count = 0 ∧
    (OrderBook.init 0).add_order Side.Buy OrderType.Limit 10000 5 = (none, OrderBook.init 0) :=
  ⟨rfl, claim_C4_pool_exhausted_state_unchanged (OrderBook.init 0) Side.Buy
      OrderType.Limit 10000 5 rfl⟩

/- ------------------------------------------------------------------ -/
/- Claim C5.                                                           -/
/- ------------------------------------------------------------------ -/

/-- Claim C5: an order id that is not currently resting — the order index
has no entry for it, which covers a never-issued id, a market order's id, a
fully filled id, and an already-cancelled id alike — makes cancel_order and
modify_order return false and leave the entire book state unchanged. -/
theorem claim_C5_unknown_order_rejected (b : OrderBook) (oid nq : Nat)
    (h : lookupIndex b.orders oid = none) :
    b.cancel_order oid = (false, b) ∧ b.modify_order oid nq = (false, b) := by
  constructor
  · simp [OrderBook.cancel_order, h]
  · simp [OrderBook.modify_order, OrderBook.findOrder, h]

/-- Book used by the C5 witness: the id 1 was issued to a market order,
which never rests, so it is absent from the order index. -/
def bkMarket : OrderBook :=
  ((OrderBook.init 4).add_order Side.Buy OrderType.Market 0 5).2

/-- Witness for C5: cancelling/modifying the id of a market order (one of
the four kinds of non-resting id) fails and changes nothing. -/
theorem claim_C5_witness :
    lookupIndex bkMarket.orders 1 = none ∧
    (bkMarket.cancel_order 1 = (false, bkMarket) ∧
     bkMarket.modify_order 1 7 = (false, bkMarket)) :=
  ⟨by decide, claim_C5_unknown_order_rejected bkMarket 1 7 (by decide)⟩

/- ------------------------------------------------------------------ -/
/- Claim C10.                                                          -/
/- ------------------------------------------------------------------ -/

/-- Claim C10: querying a price at which the chosen side has no level
returns 0 from both volume_at_price and order_count_at_price rather than
failing.  Both queries are const member functions modelled as pure
functions of the book, so neither modifies any book state. -/
theorem claim_C10_query_missing_level (b : OrderBook) (side : Side) (price : Nat)
    (h : findLevel (b.sideLevels side) price = none) :
    b.volume_at_price side price = 0 ∧ b.order_count_at_price side price = 0 := by
  cases side <;>
    simp_all [OrderBook.volume_at_price, OrderBook.order_count_at_price, OrderBook.sideLevels]

/-- Book used by query witnesses: one resting bid at 10000. -/
def bkOneBid : OrderBook :=
  ((OrderBook.init 8).add_order Side.Buy OrderType.Limit 10000 100).2

/-- Witness for C10: a populated book queried at a price with no level. -/
theorem claim_C10_witness :
    findLevel (bkOneBid.sideLevels Side.Buy) 9999 = none ∧
    (bkOneBid.volume_at_price Side.Buy 9999 = 0 ∧
     bkOneBid.order_count_at_price Side.Buy 9999 = 0) :=
  ⟨by decide, claim_C10_query_missing_level bkOneBid Side.Buy 9999 (by decide)⟩

/- ------------------------------------------------------------------ -/
/- Claim C1 (corrected).                                               -/
/- ------------------------------------------------------------------ -/

/-- Counterexample to C1 as stated: a zero-quantity limit buy at 10000
into an empty book yields status Filled — not Active — and the order does
not rest: the order index and the bid map stay empty. -/
theorem claim_C1_counterexample :
    ((OrderBook.init 8).add_order Side.Buy OrderType.Limit 10000 0).1.map OrderResult.status
      = some OrderStatus.Filled ∧
    OrderStatus.Filled ≠ OrderStatus.Active ∧
    ((OrderBook.init 8).add_order Side.Buy OrderType.Limit 10000 0).2.orders = [] ∧
    ((OrderBook.init 8).add_order Side.Buy OrderType.Limit 10000 0).2.bids = [] := by
  decide

/-- Computation of add_order on a zero-quantity limit submission (shared by
several claims): the order is caught by Order::is_filled and never rests. -/
theorem add_order_zero_qty (b : OrderBook) (side : Side) (price : Nat)
    (h : b.pool.free_count ≠ 0) :
    b.add_order side OrderType.Limit price 0 =
      (some ⟨b.next_id + 1, OrderStatus.Filled, 0, 0, []⟩,
       { b with next_id := b.next_id + 1,
                timestamp_counter := b.timestamp_counter + 1 }) := by
  have hrem : (⟨b.next_id + 1, price, 0, 0, side, OrderType.Limit, OrderStatus.Active,
      b.timestamp_counter + 1⟩ : Order).remaining = 0 := rfl
  cases side <;>
    simp [OrderBook.add_order, h, OrderBook.match_order, matchLevels_zero_rem _ _ _ hrem,
          Order.is_filled, sumQty, pool_alloc_dealloc _ h]

/-- Claim C1 as amended: a submission with quantity 0 (limit, any side, any
price) is caught by Order::is_filled (filled 0 >= quantity 0) and is
immediately reported Filled with filled 0, remaining 0 and no trades; the
order record is returned to the pool and does not rest — the side maps,
order index and pool are exactly as before, only the next-id and
next-timestamp counters advance. -/
theorem claim_C1_zero_qty_filled (b : OrderBook) (side : Side) (price : Nat)
    (h : b.pool.free_count ≠ 0) :
    b.add_order side OrderType.Limit price 0 =
      (some ⟨b.next_id + 1, OrderStatus.Filled, 0, 0, []⟩,
       { b with next_id := b.next_id + 1,
                timestamp_counter := b.timestamp_counter + 1 }) :=
  add_order_zero_qty b side price h

/-- Witness for the amended C1 at a concrete book with a resting ask. -/
def bkOneAsk : OrderBook :=
  ((OrderBook.init 8).add_order Side.Sell OrderType.Limit 10100 50).2

/-- Witness for the amended C1. -/
theorem claim_C1_witness :
    bkOneAsk.pool.free_count ≠ 0 ∧
    bkOneAsk.add_order Side.Buy OrderType.Limit 10000 0 =
      (some ⟨2, OrderStatus.Filled, 0, 0, []⟩,
       { bkOneAsk with next_id := 2, timestamp_counter := 2 }) :=
  ⟨by decide, claim_C1_zero_qty_filled bkOneAsk Side.Buy 10000 (by decide)⟩

/- ------------------------------------------------------------------ -/
/- Claim C2 (corrected).                                               -/
/- ------------------------------------------------------------------ -/

/-- Book used by the C2 counterexample: one resting bid 100 x 10. -/
def bkC2 : OrderBook :=
  ((OrderBook.init 8).add_order Side.Buy OrderType.Limit 100 10).2

/-- Counterexample to C2 as stated.  First: a limit SELL with price 0 into
a book holding a bid is maximally aggressive — the break test
bid price < 0 never fires on unsigned prices — so it crosses, produces a
trade, and ends Filled rather than resting Active with no trades.  Second:
a limit buy with price 0 and quantity 0 ends Filled, not Active, so the
Active part also needs quantity > 0. -/
theorem claim_C2_counterexample :
    (bkC2.add_order Side.Sell OrderType.Limit 0 10).1.map OrderResult.status
      = some OrderStatus.Filled ∧
    (bkC2.add_order Side.Sell OrderType.Limit 0 10).1.map (fun r => r.trades.length)
      = some 1 ∧
    ((OrderBook.init 8).add_order Side.Buy OrderType.Limit 0 0).1.map OrderResult.status
      = some OrderStatus.Filled := by
  decide

/-- Index helper: writing a fresh id appends. -/
theorem insertIndex_fresh (m : OrderIndex) (oid : Nat) (v : Side × Nat)
    (h : lookupIndex m oid = none) : insertIndex m oid v = m ++ [(oid, v)] := by
  simp [insertIndex, h]

/-- Index helper: looking up a freshly appended entry. -/
theorem lookupIndex_append_self (m : OrderIndex) (oid : Nat) (v : Side × Nat)
    (h : lookupIndex m oid = none) :
    lookupIndex (m ++ [(oid, v)]) oid = some v := by
  induction m with
  | nil => simp [lookupIndex]
  | cons e rest ih =>
    by_cases he : e.1 = oid
    · simp [lookupIndex, he] at h
    · simp only [lookupIndex, List.cons_append, he, if_false] at h ⊢
      exact ih h

/-- Map helper: after insert_into_book the inserted order sits in the level
found at its price. -/
theorem findLevel_insertLevel_mem (m : Levels) (o : Order) :
    ∃ L, findLevel (insertLevel m o) o.price = some L ∧ o ∈ L.queue := by
  induction m with
  | nil =>
    refine ⟨(PriceLevel.emptyAt o.price).add_order o, ?_, ?_⟩
    · simp [insertLevel, findLevel]
    · simp [PriceLevel.add_order, PriceLevel.emptyAt]
  | cons e rest ih =>
    cases e with
    | mk p L =>
      by_cases h1 : o.price < p
      · refine ⟨(PriceLevel.emptyAt o.price).add_order o, ?_, ?_⟩
        · simp [insertLevel, h1, findLevel]
        · simp [PriceLevel.add_order, PriceLevel.emptyAt]
      · by_cases h2 : o.price = p
        · refine ⟨L.add_order o, ?_, ?_⟩
          · simp [insertLevel, h1, h2, findLevel]
          · simp [PriceLevel.add_order]
        · obtain ⟨L1, hf, hm⟩ := ih
          refine ⟨L1, ?_, hm⟩
          have hne : p ≠ o.price := fun hh => h2 hh.symm
          simp [insertLevel, h1, h2, findLevel, hne, hf]

/-- Claim C2 as amended: a limit BUY at price 0 with positive quantity,
submitted to a book none of whose ask levels sits at price 0 (always the
case unless a price-0 sell rested earlier) and whose fresh id is unused,
never crosses: the break ask price > 0 fires at the best ask, so no trades
occur and the order rests with status Active and filled 0 — it is present
in the order index and in the bid level at price 0.  The sell half of the
original claim is refuted by the counterexample: a price-0 limit sell is
maximally aggressive, and a quantity-0 price-0 submission reports Filled. -/
theorem claim_C2_buy_price_zero_rests (b : OrderBook) (qty : Nat)
    (hfc : b.pool.free_count ≠ 0) (hq : qty ≠ 0)
    (hask : ∀ e ∈ b.asks, e.1 ≠ 0)
    (hfresh : lookupIndex b.orders (b.next_id + 1) = none) :
    ∃ b1, b.add_order Side.Buy OrderType.Limit 0 qty =
        (some ⟨b.next_id + 1, OrderStatus.Active, 0, qty, []⟩, b1) ∧
      lookupIndex b1.orders (b.next_id + 1) = some (Side.Buy, 0) ∧
      (∃ L, findLevel b1.bids 0 = some L ∧
        (⟨b.next_id + 1, 0, qty, 0, Side.Buy, OrderType.Limit, OrderStatus.Active,
          b.timestamp_counter + 1⟩ : Order) ∈ L.queue) ∧
      b1.asks = b.asks ∧ b1.trade_count = b.trade_count ∧
      b1.total_volume = b.total_volume := by
  have hstop : ∀ e ∈ b.asks, crossStop
      (⟨b.next_id + 1, 0, qty, 0, Side.Buy, OrderType.Limit, OrderStatus.Active,
        b.timestamp_counter + 1⟩ : Order) e.1 = true := by
    intro e he
    have h0 := hask e he
    simp only [crossStop, decide_eq_true_eq, Bool.and_eq_true]
    exact ⟨by decide, by omega⟩
  have hm := matchLevels_allStop _ (b.timestamp_counter + 1) b.asks hstop
  have hnf : (⟨b.next_id + 1, 0, qty, 0, Side.Buy, OrderType.Limit, OrderStatus.Active,
      b.timestamp_counter + 1⟩ : Order).is_filled = false := by
    simp [Order.is_filled]; omega
  refine ⟨⟨insertLevel b.bids
      ⟨b.next_id + 1, 0, qty, 0, Side.Buy, OrderType.Limit, OrderStatus.Active,
        b.timestamp_counter + 1⟩,
      b.asks, b.orders ++ [(b.next_id + 1, (Side.Buy, 0))], b.pool.allocate,
      b.next_id + 1, b.timestamp_counter + 1, b.trade_count, b.total_volume⟩,
    ?_, ?_, ?_, rfl, rfl, rfl⟩
  · simp [OrderBook.add_order, hfc, OrderBook.match_order, hm, hnf, sumQty,
          Order.remaining, insertIndex_fresh _ _ _ hfresh]
  · exact lookupIndex_append_self _ _ _ hfresh
  · exact findLevel_insertLevel_mem b.bids _

/- ------------------------------------------------------------------ -/
/- Claim C3.                                                           -/
/- ------------------------------------------------------------------ -/

/-- Every trade the inner loop produces names a passive order of the
processed queue and carries that order's price. -/
theorem matchQueue_trades_passive (agg : Order) (ts tot cnt : Nat) (q : List Order) :
    ∀ t ∈ (matchQueue agg ts tot cnt q).trades,
      ∃ o ∈ q, passiveId agg.side t = o.id ∧ t.price = o.price := by
  induction q generalizing agg tot cnt with
  | nil => simp [matchQueue]
  | cons p rest ih =>
    intro t ht
    simp only [matchQueue] at ht
    by_cases hz : agg.remaining = 0
    · simp [hz] at ht
    · simp only [hz, if_false, ite_false, if_neg] at ht
      have hside : ({ agg with filled_quantity :=
          agg.filled_quantity + min agg.remaining p.remaining } : Order).side = agg.side := rfl
      split at ht <;>
      · simp only [List.mem_cons] at ht
        rcases ht with rfl | ht
        · refine ⟨p, by simp, ?_, ?_⟩ <;> cases hs : agg.side <;> simp [mkTrade, passiveId, hs]
        · obtain ⟨o, ho, h1, h2⟩ := ih _ _ _ _ ht
          rw [hside] at h1
          exact ⟨o, by simp [ho], h1, h2⟩

/-- Every trade the outer loop produces names a passive order resting in
one of the supplied levels and carries that order's price. -/
theorem matchLevels_trades_passive (agg : Order) (ts : Nat) (cur : Levels) :
    ∀ t ∈ (matchLevels agg ts cur).trades,
      ∃ e ∈ cur, ∃ o ∈ e.2.queue, passiveId agg.side t = o.id ∧ t.price = o.price := by
  induction cur generalizing agg with
  | nil => simp [matchLevels]
  | cons e rest ih =>
    obtain ⟨pr, L⟩ := e
    intro t ht
    have hqside := matchQueue_agg_side agg ts L.total_quantity L.order_count L.queue
    simp only [matchLevels] at ht
    split at ht
    · simp at ht
    · split at ht
      · simp at ht
      · split at ht
        · simp only [List.mem_append] at ht
          rcases ht with ht1 | ht1
          · obtain ⟨o, ho, h1, h2⟩ := matchQueue_trades_passive agg ts _ _ _ t ht1
            exact ⟨(pr, L), by simp, o, ho, h1, h2⟩
          · obtain ⟨e1, he1, o, ho, h1, h2⟩ := ih _ t ht1
            rw [hqside] at h1
            exact ⟨e1, by simp [he1], o, ho, h1, h2⟩
        · simp only [List.mem_append] at ht
          rcases ht with ht1 | ht1
          · obtain ⟨o, ho, h1, h2⟩ := matchQueue_trades_passive agg ts _ _ _ t ht1
            exact ⟨(pr, L), by simp, o, ho, h1, h2⟩
          · obtain ⟨e1, he1, o, ho, h1, h2⟩ := ih _ t ht1
            rw [hqside] at h1
            exact ⟨e1, by simp [he1], o, ho, h1, h2⟩

/-- Claim C3: every trade produced by a submission (limit or market, either
side) prints at the price of the passive (resting) order it executed
against — the trade's passive-side id names an order resting on the
opposite side of the pre-submission book, and the trade price equals that
order's price (never the aggressor's own limit). -/
theorem claim_C3_trades_at_passive_price (b : OrderBook) (side : Side)
    (type : OrderType) (price qty : Nat) (res : OrderResult) (b1 : OrderBook)
    (h : b.add_order side type price qty = (some res, b1)) :
    ∀ t ∈ res.trades, ∃ e ∈ b.oppLevels side, ∃ o ∈ e.2.queue,
      passiveId side t = o.id ∧ t.price = o.price := by
  by_cases hfc : b.pool.free_count = 0
  · simp [OrderBook.add_order, hfc] at h
  · have hres : res.trades = (b.match_order
        ⟨b.next_id + 1, price, qty, 0, side, type, OrderStatus.Active,
          b.timestamp_counter + 1⟩ (b.timestamp_counter + 1)).trades := by
      simp only [OrderBook.add_order, hfc, if_false, ite_false] at h
      split at h <;> [skip; split at h] <;>
        (simp only [Prod.mk.injEq, Option.some.injEq] at h
         obtain ⟨h1, -⟩ := h
         rw [← h1])
    intro t ht
    rw [hres] at ht
    cases side with
    | Buy =>
      simp only [OrderBook.match_order] at ht
      obtain ⟨e, he, o, ho, h1, h2⟩ := matchLevels_trades_passive _ _ b.asks t ht
      exact ⟨e, he, o, ho, h1, h2⟩
    | Sell =>
      simp only [OrderBook.match_order] at ht
      obtain ⟨e, he, o, ho, h1, h2⟩ := matchLevels_trades_passive _ _ b.bids.reverse t ht
      rw [List.mem_reverse] at he
      exact ⟨e, he, o, ho, h1, h2⟩

/-- Book used by the C3 witness: one resting ask 10000 x 50. -/
def bkOneAsk10000 : OrderBook :=
  ((OrderBook.init 8).add_order Side.Sell OrderType.Limit 10000 50).2

/-- Witness for C3: the concrete crossing submission Buy limit 10100 x 10
into a book with an ask 10000 x 50 produces the trade
(buy 2, sell 1, price 10000) — priced at the passive order's price. -/
theorem claim_C3_witness :
    ∃ e ∈ bkOneAsk10000.oppLevels Side.Buy, ∃ o ∈ e.2.queue,
      passiveId Side.Buy ⟨2, 1, 10000, 10, 2⟩ = o.id ∧
      (10000 : Nat) = o.price :=
  claim_C3_trades_at_passive_price bkOneAsk10000 Side.Buy OrderType.Limit 10100 10
    ⟨2, OrderStatus.Filled, 10, 0, [⟨2, 1, 10000, 10, 2⟩]⟩
    (bkOneAsk10000.add_order Side.Buy OrderType.Limit 10100 10).2
    (by decide) ⟨2, 1, 10000, 10, 2⟩ (by decide)

/- ------------------------------------------------------------------ -/
/- Claim C8.                                                           -/
/- ------------------------------------------------------------------ -/

/-- Writing back a level found in the map lands at the found key. -/
theorem findLevel_setLevel_self (m : Levels) (p : Nat) (L0 L1 : PriceLevel)
    (h : findLevel m p = some L0) :
    findLevel (setLevel m p L1) p = some L1 := by
  induction m with
  | nil => simp [findLevel] at h
  | cons e rest ih =>
    obtain ⟨pe, Le⟩ := e
    by_cases hp : pe = p
    · simp [findLevel, setLevel, hp]
    · simp only [findLevel, setLevel, hp, if_false, ite_false, if_neg hp] at h ⊢
      exact ih h

/-- Writing back a level leaves every other key untouched. -/
theorem findLevel_setLevel_ne (m : Levels) (p p2 : Nat) (L1 : PriceLevel) (h : p2 ≠ p) :
    findLevel (setLevel m p L1) p2 = findLevel m p2 := by
  induction m with
  | nil => simp [setLevel]
  | cons e rest ih =>
    obtain ⟨pe, Le⟩ := e
    by_cases hp : pe = p
    · have hne : ¬ p = p2 := fun hh => h hh.symm
      simp [setLevel, findLevel, hp, hne]
    · by_cases hp2 : pe = p2
      · have hne : ¬ p2 = p := h
        simp [setLevel, findLevel, hp, hp2, hne]
      · simp [setLevel, findLevel, hp, hp2, ih]

/-- The in-place quantity write preserves every per-order field other than
the quantity, including positions: any projection insensitive to quantity
maps identically over the queue. -/
theorem updateQuantityFirst_map {α : Type} (f : Order → α)
    (hf : ∀ (o : Order) (n : Nat), f { o with quantity := n } = f o)
    (q : List Order) (oid nq : Nat) :
    (updateQuantityFirst q oid nq).map f = q.map f := by
  induction q with
  | nil => rfl
  | cons o rest ih =>
    by_cases h : o.id = oid
    · simp only [updateQuantityFirst]
      rw [if_pos h]
      simp [hf, ih]
    · simp [updateQuantityFirst, h, ih]

/-- After the in-place write, the targeted record reads back with the new
total quantity and all other fields intact. -/
theorem findById_updateQuantityFirst_self (q : List Order) (oid nq : Nat) (o : Order)
    (h : findById q oid = some o) :
    findById (updateQuantityFirst q oid nq) oid = some { o with quantity := nq } := by
  induction q with
  | nil => simp [findById] at h
  | cons p rest ih =>
    by_cases hp : p.id = oid
    · simp only [findById, hp, if_true, if_pos, Option.some.injEq] at h
      subst h
      have hid : ({ p with quantity := nq } : Order).id = oid := hp
      simp [updateQuantityFirst, hp, findById, hid]
    · simp only [findById, updateQuantityFirst, hp, if_false, ite_false, if_neg hp] at h ⊢
      exact ih h

/-- The in-place write leaves every other id's record untouched. -/
theorem findById_updateQuantityFirst_ne (q : List Order) (oid nq oid2 : Nat)
    (h : oid2 ≠ oid) :
    findById (updateQuantityFirst q oid nq) oid2 = findById q oid2 := by
  induction q with
  | nil => rfl
  | cons p rest ih =>
    by_cases hp : p.id = oid
    · have hne : ¬ oid = oid2 := fun hh => h hh.symm
      simp [updateQuantityFirst, hp, findById, hne]
    · by_cases hq2 : p.id = oid2
      · simp [updateQuantityFirst, hp, findById, hq2, h]
      · simp [updateQuantityFirst, hp, findById, hq2, ih]

/-- Claim C8: modify_order on a resting order to a new total quantity
strictly between its filled quantity and its current total returns true,
rewrites the record's total quantity in place, decrements the level's
cached total by the reduction in remaining, and changes nothing else: the
record keeps its id, timestamp and queue position, every other order and
level is untouched on both sides, and the index, pool and all counters are
exactly as before. -/
theorem claim_C8_modify_reduce_in_place (b : OrderBook) (oid nq : Nat) (s : Side)
    (pr : Nat) (L : PriceLevel) (o : Order)
    (hidx : lookupIndex b.orders oid = some (s, pr))
    (hlvl : findLevel (b.sideLevels s) pr = some L)
    (hord : findById L.queue oid = some o)
    (hside : o.side = s) (hprice : o.price = pr)
    (h1 : o.filled_quantity < nq) (h2 : nq < o.quantity) :
    (b.modify_order oid nq).1 = true ∧
    (b.modify_order oid nq).2.orders = b.orders ∧
    (b.modify_order oid nq).2.pool = b.pool ∧
    (b.modify_order oid nq).2.next_id = b.next_id ∧
    (b.modify_order oid nq).2.timestamp_counter = b.timestamp_counter ∧
    (b.modify_order oid nq).2.trade_count = b.trade_count ∧
    (b.modify_order oid nq).2.total_volume = b.total_volume ∧
    (b.modify_order oid nq).2.oppLevels s = b.oppLevels s ∧
    (∀ p2, p2 ≠ pr → findLevel ((b.modify_order oid nq).2.sideLevels s) p2
        = findLevel (b.sideLevels s) p2) ∧
    (∃ L1, findLevel ((b.modify_order oid nq).2.sideLevels s) pr = some L1 ∧
      L1.queue.map Order.id = L.queue.map Order.id ∧
      L1.queue.map Order.timestamp = L.queue.map Order.timestamp ∧
      findById L1.queue oid = some { o with quantity := nq } ∧
      (∀ oid2, oid2 ≠ oid → findById L1.queue oid2 = findById L.queue oid2) ∧
      L1.order_count = L.order_count ∧
      L1.total_quantity = L.total_quantity - (o.remaining - (nq - o.filled_quantity))) := by
  have hle : ¬ nq ≤ o.filled_quantity := by omega
  have hmod : b.modify_order oid nq =
      (true, { b with
        bids := (match s with
          | Side.Buy => setLevel b.bids pr
              { L with queue := updateQuantityFirst L.queue oid nq,
                       total_quantity :=
                         L.total_quantity - (o.remaining - (nq - o.filled_quantity)) }
          | Side.Sell => b.bids),
        asks := (match s with
          | Side.Buy => b.asks
          | Side.Sell => setLevel b.asks pr
              { L with queue := updateQuantityFirst L.queue oid nq,
                       total_quantity :=
                         L.total_quantity - (o.remaining - (nq - o.filled_quantity)) }) }) := by
    cases s <;>
      simp only [OrderBook.sideLevels] at hlvl <;>
      simp [OrderBook.modify_order, OrderBook.findOrder, hidx, hlvl, hord, hle, h2,
            hside, hprice, Order.remaining]
  refine ⟨by simp [hmod], by simp [hmod], by simp [hmod], by simp [hmod], by simp [hmod],
          by simp [hmod], by simp [hmod], ?_, ?_, ?_⟩
  · cases s <;> simp [hmod, OrderBook.oppLevels]
  · intro p2 hp2
    cases s <;>
      simp [hmod, OrderBook.sideLevels, findLevel_setLevel_ne _ _ _ _ hp2]
  · have hfind : findLevel ((b.modify_order oid nq).2.sideLevels s) pr = some
        { L with queue := updateQuantityFirst L.queue oid nq,
                 total_quantity := L.total_quantity - (o.remaining - (nq - o.filled_quantity)) } := by
      cases s <;>
        simp only [OrderBook.sideLevels] at hlvl ⊢ <;>
        simp [hmod] <;>
        exact findLevel_setLevel_self _ _ _ _ hlvl
    exact ⟨_, hfind, updateQuantityFirst_map Order.id (fun _ _ => rfl) _ _ _,
      updateQuantityFirst_map Order.timestamp (fun _ _ => rfl) _ _ _,
      findById_updateQuantityFirst_self _ _ _ _ hord,
      fun oid2 h2p => findById_updateQuantityFirst_ne _ _ _ _ h2p, rfl, rfl⟩

/-- Book used by the C8 witness: a resting bid 10000 x 500 with id 1. -/
def bkMod : OrderBook :=
  ((OrderBook.init 8).add_order Side.Buy OrderType.Limit 10000 500).2

/-- Witness for C8: reduce the resting 500-lot order with id 1 to 300. -/
theorem claim_C8_witness :
    (bkMod.modify_order 1 300).1 = true ∧
    (bkMod.modify_order 1 300).2.pool = bkMod.pool ∧
    (bkMod.modify_order 1 300).2.orders = bkMod.orders :=
  ⟨(claim_C8_modify_reduce_in_place bkMod 1 300 Side.Buy 10000
      ⟨10000, 500, 1, [⟨1, 10000, 500, 0, Side.Buy, OrderType.Limit, OrderStatus.Active, 1⟩]⟩
      ⟨1, 10000, 500, 0, Side.Buy, OrderType.Limit, OrderStatus.Active, 1⟩
      (by decide) (by decide) (by decide) (by decide) (by decide) (by decide) (by decide)).1,
   (claim_C8_modify_reduce_in_place bkMod 1 300 Side.Buy 10000
      ⟨10000, 500, 1, [⟨1, 10000, 500, 0, Side.Buy, OrderType.Limit, OrderStatus.Active, 1⟩]⟩
      ⟨1, 10000, 500, 0, Side.Buy, OrderType.Limit, OrderStatus.Active, 1⟩
      (by decide) (by decide) (by decide) (by decide) (by decide) (by decide) (by decide)).2.2.1,
   (claim_C8_modify_reduce_in_place bkMod 1 300 Side.Buy 10000
      ⟨10000, 500, 1, [⟨1, 10000, 500, 0, Side.Buy, OrderType.Limit, OrderStatus.Active, 1⟩]⟩
      ⟨1, 10000, 500, 0, Side.Buy, OrderType.Limit, OrderStatus.Active, 1⟩
      (by decide) (by decide) (by decide) (by decide) (by decide) (by decide) (by decide)).2.1⟩

/- ------------------------------------------------------------------ -/
/- Claim C6: level cache invariants.                                   -/
/- ------------------------------------------------------------------ -/

/-- The per-level invariant of claim C6: the queue is non-empty, the cached
order_count equals the queue length, and the cached total_quantity equals
the sum of remaining quantities over the queued orders. -/
def levelOK (e : Nat × PriceLevel) : Prop :=
  e.2.queue ≠ [] ∧
  e.2.order_count = e.2.queue.length ∧
  e.2.total_quantity = (e.2.queue.map Order.remaining).sum

instance (e : Nat × PriceLevel) : Decidable (levelOK e) := by
  unfold levelOK; infer_instance

/-- Claim C6's invariant over both side maps of a book. -/
def OrderBook.LevelsWF (b : OrderBook) : Prop :=
  (∀ e ∈ b.bids, levelOK e) ∧ ∀ e ∈ b.asks, levelOK e

instance (b : OrderBook) : Decidable b.LevelsWF := by
  unfold OrderBook.LevelsWF; infer_instance

/-- A spent aggressor leaves the queue loop immediately. -/
theorem matchQueue_zero (agg : Order) (ts tot cnt : Nat) (q : List Order)
    (h : agg.remaining = 0) : matchQueue agg ts tot cnt q = ⟨agg, q, tot, cnt, [], []⟩ := by
  cases q <;> simp [matchQueue, h]

/-- The inner loop keeps the threaded cached aggregates consistent with
the surviving queue. -/
theorem matchQueue_cache (agg : Order) (ts : Nat) (q : List Order) (tot cnt : Nat)
    (htot : tot = (q.map Order.remaining).sum) (hcnt : cnt = q.length) :
    (matchQueue agg ts tot cnt q).total_quantity
        = ((matchQueue agg ts tot cnt q).queue.map Order.remaining).sum ∧
    (matchQueue agg ts tot cnt q).order_count
        = (matchQueue agg ts tot cnt q).queue.length := by
  induction q generalizing agg tot cnt with
  | nil => simp [matchQueue, htot, hcnt]
  | cons p rest ih =>
    by_cases hz : agg.remaining = 0
    · simp [matchQueue, hz, htot, hcnt]
    · have hpr : p.remaining = p.quantity - p.filled_quantity := rfl
      have har : agg.remaining = agg.quantity - agg.filled_quantity := rfl
      have htotc : tot = p.remaining + (rest.map Order.remaining).sum := by
        rw [htot]; simp
      by_cases hf : ({ p with filled_quantity := p.filled_quantity + min agg.remaining p.remaining } : Order).is_filled = true
      · -- passive fully filled and removed
        have hfq : p.quantity ≤ p.filled_quantity + min agg.remaining p.remaining := by
          simpa [Order.is_filled] using hf
        have hrem0 : ({ p with filled_quantity := p.filled_quantity + min agg.remaining p.remaining } : Order).remaining = 0 := by
          show p.quantity - (p.filled_quantity + min agg.remaining p.remaining) = 0
          omega
        have htot2 : tot - min agg.remaining p.remaining - ({ p with filled_quantity := p.filled_quantity + min agg.remaining p.remaining } : Order).remaining = (rest.map Order.remaining).sum := by
          rw [hrem0]
          omega
        have hcnt2 : cnt - 1 = rest.length := by simp [hcnt]
        have hih := ih { agg with filled_quantity := agg.filled_quantity + min agg.remaining p.remaining } (tot - min agg.remaining p.remaining - ({ p with filled_quantity := p.filled_quantity + min agg.remaining p.remaining } : Order).remaining) (cnt - 1) htot2 hcnt2
        simp only [matchQueue, hz, ite_false, if_false, hf, if_true, ite_true,
          eq_self_iff_true]
        exact hih
      · -- passive survives; the aggressor is spent
        have hfq : ¬ p.quantity ≤ p.filled_quantity + min agg.remaining p.remaining := by
          simpa [Order.is_filled] using hf
        have hagg0 : ({ agg with filled_quantity := agg.filled_quantity + min agg.remaining p.remaining } : Order).remaining = 0 := by
          show agg.quantity - (agg.filled_quantity + min agg.remaining p.remaining) = 0
          omega
        have hmz := matchQueue_zero { agg with filled_quantity := agg.filled_quantity + min agg.remaining p.remaining } ts (tot - min agg.remaining p.remaining) cnt rest hagg0
        simp only [matchQueue, hz, ite_false, if_false, hf, hmz, Bool.false_eq_true]
        refine ⟨?_, ?_⟩
        · simp only [List.map_cons, List.sum_cons]
          have hp1 : ({ p with filled_quantity := p.filled_quantity + min agg.remaining p.remaining } : Order).remaining = p.quantity - (p.filled_quantity + min agg.remaining p.remaining) := rfl
          rw [hp1]
          omega
        · simp [hcnt]

/-- The outer loop preserves the per-level cache invariant for every level
it leaves in the map. -/
theorem matchLevels_levelOK (agg : Order) (ts : Nat) (cur : Levels)
    (h : ∀ e ∈ cur, levelOK e) :
    ∀ e ∈ (matchLevels agg ts cur).levels, levelOK e := by
  induction cur generalizing agg with
  | nil => simp [matchLevels]
  | cons e0 rest ih =>
    obtain ⟨pr, L⟩ := e0
    intro e he
    simp only [matchLevels] at he
    split at he
    · exact h e he
    · split at he
      · exact h e he
      · have hok := h (pr, L) (by simp)
        obtain ⟨hne, hcnt, htot⟩ := hok
        have hc := matchQueue_cache agg ts L.queue L.total_quantity L.order_count htot hcnt
        split at he
        · exact ih _ (fun x hx => h x (by simp [hx])) e he
        · simp only [List.mem_cons] at he
          rcases he with rfl | he
          · rename_i hq
            refine ⟨hq, ?_, ?_⟩
            · exact hc.2
            · exact hc.1
          · exact ih _ (fun x hx => h x (by simp [hx])) e he

/-- insert_into_book preserves the per-level cache invariant. -/
theorem insertLevel_levelOK (m : Levels) (o : Order) (h : ∀ e ∈ m, levelOK e) :
    ∀ e ∈ insertLevel m o, levelOK e := by
  induction m with
  | nil =>
    intro e he
    simp only [insertLevel, List.mem_singleton] at he
    subst he
    refine ⟨by simp [PriceLevel.add_order, PriceLevel.emptyAt], ?_, ?_⟩ <;>
      simp [PriceLevel.add_order, PriceLevel.emptyAt, levelOK]
  | cons e0 rest ih =>
    obtain ⟨pe, Le⟩ := e0
    intro e he
    simp only [insertLevel] at he
    split at he
    · rcases List.mem_cons.mp he with rfl | he2
      · refine ⟨?_, ?_, ?_⟩ <;>
          simp [PriceLevel.add_order, PriceLevel.emptyAt, levelOK]
      · exact h e he2
    · split at he
      · rcases List.mem_cons.mp he with rfl | he2
        · obtain ⟨hne, hcnt, htot⟩ := h (pe, Le) (by simp)
          refine ⟨by simp [PriceLevel.add_order], ?_, ?_⟩
          · simp only [PriceLevel.add_order]
            simp
            exact hcnt
          · simp only [PriceLevel.add_order]
            simp
            exact htot
        · exact h e (by simp [he2])
      · rcases List.mem_cons.mp he with rfl | he2
        · exact h (pe, Le) (by simp)
        · exact ih (fun x hx => h x (by simp [hx])) e he2

/-- A key found in a side map is one of its entries. -/
theorem findLevel_mem (m : Levels) (p : Nat) (L : PriceLevel)
    (h : findLevel m p = some L) : (p, L) ∈ m := by
  induction m with
  | nil => simp [findLevel] at h
  | cons e rest ih =>
    obtain ⟨pe, Le⟩ := e
    by_cases hp : pe = p
    · subst hp
      simp only [findLevel, if_true, ite_true, Option.some.injEq] at h
      simp [h]
    · simp only [findLevel, hp, if_false, ite_false] at h
      simp [ih h]

/-- An index hit is one of the index entries. -/
theorem lookupIndex_mem (m : OrderIndex) (oid : Nat) (sv : Side × Nat)
    (h : lookupIndex m oid = some sv) : (oid, sv) ∈ m := by
  induction m with
  | nil => simp [lookupIndex] at h
  | cons e rest ih =>
    by_cases he : e.1 = oid
    · simp only [lookupIndex, he, if_true, ite_true, Option.some.injEq] at h
      subst h
      have : e = (oid, e.2) := by rw [← he]
      simp [← this]
    · simp only [lookupIndex, he, if_false, ite_false] at h
      simp [ih h]

/-- The record found by id carries that id. -/
theorem findById_id (q : List Order) (oid : Nat) (o : Order)
    (h : findById q oid = some o) : o.id = oid := by
  induction q with
  | nil => simp [findById] at h
  | cons p rest ih =>
    by_cases hp : p.id = oid
    · simp only [findById, hp, if_true, ite_true, Option.some.injEq] at h
      subst h; exact hp
    · simp only [findById, hp, if_false, ite_false] at h
      exact ih h

/-- The record found by id is in the queue. -/
theorem findById_mem (q : List Order) (oid : Nat) (o : Order)
    (h : findById q oid = some o) : o ∈ q := by
  induction q with
  | nil => simp [findById] at h
  | cons p rest ih =>
    by_cases hp : p.id = oid
    · simp only [findById, hp, if_true, ite_true, Option.some.injEq] at h
      simp [h]
    · simp only [findById, hp, if_false, ite_false] at h
      simp [ih h]

/-- Unlinking the found node shortens the queue by one. -/
theorem removeFirstId_length (q : List Order) (oid : Nat) (o : Order)
    (h : findById q oid = some o) :
    (removeFirstId q oid).length + 1 = q.length := by
  induction q with
  | nil => simp [findById] at h
  | cons p rest ih =>
    by_cases hp : p.id = oid
    · simp [removeFirstId, hp]
    · simp only [findById, hp, if_false, ite_false] at h
      simp [removeFirstId, hp, ih h]

/-- Unlinking the found node removes exactly its remaining from the sum. -/
theorem removeFirstId_sum (q : List Order) (oid : Nat) (o : Order)
    (h : findById q oid = some o) :
    ((removeFirstId q oid).map Order.remaining).sum + o.remaining
      = (q.map Order.remaining).sum := by
  induction q with
  | nil => simp [findById] at h
  | cons p rest ih =>
    by_cases hp : p.id = oid
    · simp only [findById, hp, if_true, ite_true, Option.some.injEq] at h
      subst h
      simp [removeFirstId, hp]
      omega
    · simp only [findById, hp, if_false, ite_false] at h
      simp only [removeFirstId, hp, if_false, ite_false, List.map_cons, List.sum_cons]
      have := ih h
      omega

/-- Erasing a key only drops entries. -/
theorem mem_eraseLevel (m : Levels) (p : Nat) :
    ∀ e ∈ eraseLevel m p, e ∈ m := by
  induction m with
  | nil => simp [eraseLevel]
  | cons e0 rest ih =>
    intro e he
    obtain ⟨pe, Le⟩ := e0
    by_cases hp : pe = p
    · simp only [eraseLevel, hp, if_true, ite_true] at he
      simp [he]
    · simp only [eraseLevel, hp, if_false, ite_false, List.mem_cons] at he
      rcases he with rfl | he2
      · simp
      · simp [ih e he2]

/-- A member of a written-back map is an old entry or the written level. -/
theorem mem_setLevel (m : Levels) (p : Nat) (L1 : PriceLevel) :
    ∀ e ∈ setLevel m p L1, e ∈ m ∨ e = (p, L1) := by
  induction m with
  | nil => simp [setLevel]
  | cons e0 rest ih =>
    intro e he
    obtain ⟨pe, Le⟩ := e0
    by_cases hp : pe = p
    · subst hp
      simp only [setLevel, if_true, ite_true, List.mem_cons] at he
      rcases he with rfl | he2
      · right; rfl
      · left; simp [he2]
    · simp only [setLevel, hp, if_false, ite_false, List.mem_cons] at he
      rcases he with rfl | he2
      · left; simp
      · rcases ih e he2 with h3 | h3
        · left; simp [h3]
        · right; exact h3

/-- The in-place quantity write keeps the queue length. -/
theorem updateQuantityFirst_length (q : List Order) (oid nq : Nat) :
    (updateQuantityFirst q oid nq).length = q.length := by
  induction q with
  | nil => rfl
  | cons p rest ih =>
    by_cases hp : p.id = oid
    · simp [updateQuantityFirst, hp]
    · simp [updateQuantityFirst, hp, ih]

/-- Effect of the in-place quantity write on the remaining-quantity sum. -/
theorem updateQuantityFirst_sum (q : List Order) (oid nq : Nat) (o : Order)
    (h : findById q oid = some o) :
    ((updateQuantityFirst q oid nq).map Order.remaining).sum + o.remaining
      = (q.map Order.remaining).sum + (nq - o.filled_quantity) := by
  induction q with
  | nil => simp [findById] at h
  | cons p rest ih =>
    by_cases hp : p.id = oid
    · simp only [findById, hp, if_true, ite_true, Option.some.injEq] at h
      subst h
      simp only [updateQuantityFirst]
      rw [if_pos hp]
      simp only [List.map_cons, List.sum_cons]
      have hr1 : ({ p with quantity := nq } : Order).remaining = nq - p.filled_quantity := rfl
      have hr2 : p.remaining = p.quantity - p.filled_quantity := rfl
      omega
    · simp only [findById, hp, if_false, ite_false] at h
      simp only [updateQuantityFirst, hp, if_false, ite_false, List.map_cons, List.sum_cons]
      have := ih h
      omega

/-- One resting order's remaining never exceeds its queue's remaining sum. -/
theorem remaining_le_sum (q : List Order) (o : Order) (h : o ∈ q) :
    o.remaining ≤ (q.map Order.remaining).sum := by
  induction q with
  | nil => simp at h
  | cons p rest ih =>
    rcases List.mem_cons.mp h with rfl | h2
    · simp
    · simp only [List.map_cons, List.sum_cons]
      have := ih h2
      omega

/-- The matching phase of add_order preserves the per-level cache
invariant on both side maps. -/
theorem match_order_levelOK (b : OrderBook) (o : Order) (ts : Nat) (h : b.LevelsWF) :
    (∀ e ∈ (b.match_order o ts).bids, levelOK e) ∧
    (∀ e ∈ (b.match_order o ts).asks, levelOK e) := by
  obtain ⟨hb, ha⟩ := h
  cases hs : o.side
  · refine ⟨?_, ?_⟩
    · simp only [OrderBook.match_order, hs]
      exact hb
    · simp only [OrderBook.match_order, hs]
      exact matchLevels_levelOK _ _ _ ha
  · refine ⟨?_, ?_⟩
    · simp only [OrderBook.match_order, hs]
      intro e he
      rw [List.mem_reverse] at he
      exact matchLevels_levelOK _ _ _
        (fun x hx => hb x (List.mem_reverse.mp hx)) e he
    · simp only [OrderBook.match_order, hs]
      exact ha

/-- add_order preserves the per-level cache invariant. -/
theorem add_order_levelsWF (b : OrderBook) (side : Side) (type : OrderType)
    (price qty : Nat) (h : b.LevelsWF) :
    (b.add_order side type price qty).2.LevelsWF := by
  have hmo := match_order_levelOK b
    ⟨b.next_id + 1, price, qty, 0, side, type, OrderStatus.Active, b.timestamp_counter + 1⟩
    (b.timestamp_counter + 1) h
  obtain ⟨hmb, hma⟩ := hmo
  by_cases hfc : b.pool.free_count = 0
  · simpa [OrderBook.add_order, hfc] using h
  · simp only [OrderBook.add_order, hfc, if_false, ite_false]
    split
    · exact ⟨hmb, hma⟩
    · split
      · cases side
        · exact ⟨insertLevel_levelOK _ _ hmb, hma⟩
        · exact ⟨hmb, insertLevel_levelOK _ _ hma⟩
      · exact ⟨hmb, hma⟩

/-- The level update performed by cancel_order preserves the per-level
cache invariant. -/
theorem cancelStep_levelOK (levels : Levels) (pr oid : Nat)
    (h : ∀ e ∈ levels, levelOK e) (L : PriceLevel) (o : Order)
    (hfl : findLevel levels pr = some L) (hfo : findById L.queue oid = some o) :
    ∀ e ∈ (if (L.remove_order o).queue = [] then eraseLevel levels pr
           else setLevel levels pr (L.remove_order o)), levelOK e := by
  intro e he
  split at he
  · exact h e (mem_eraseLevel _ _ e he)
  · rcases mem_setLevel _ _ _ e he with he2 | rfl
    · exact h e he2
    · obtain ⟨hne, hcnt, htot⟩ := h (pr, L) (findLevel_mem _ _ _ hfl)
      have hid := findById_id _ _ _ hfo
      have hlen := removeFirstId_length L.queue oid o hfo
      have hsum := removeFirstId_sum L.queue oid o hfo
      rename_i hq
      refine ⟨hq, ?_, ?_⟩
      · show L.order_count - 1 = (removeFirstId L.queue o.id).length
        rw [hid]
        have hcnt2 : L.order_count = L.queue.length := hcnt
        omega
      · show L.total_quantity - o.remaining
          = ((removeFirstId L.queue o.id).map Order.remaining).sum
        rw [hid]
        have htot2 : L.total_quantity = (L.queue.map Order.remaining).sum := htot
        omega

/-- cancel_order preserves the per-level cache invariant. -/
theorem cancel_order_levelsWF (b : OrderBook) (oid : Nat) (h : b.LevelsWF) :
    (b.cancel_order oid).2.LevelsWF := by
  obtain ⟨hmb, hma⟩ := h
  cases hidx : lookupIndex b.orders oid with
  | none =>
    simp only [OrderBook.cancel_order, hidx]
    exact ⟨hmb, hma⟩
  | some sv =>
    obtain ⟨s, pr⟩ := sv
    cases s
    · cases hfl : findLevel b.bids pr with
      | none =>
        simp only [OrderBook.cancel_order, hidx, hfl]
        exact ⟨hmb, hma⟩
      | some L =>
        cases hfo : findById L.queue oid with
        | none =>
          simp only [OrderBook.cancel_order, hidx, hfl, hfo]
          exact ⟨hmb, hma⟩
        | some o =>
          simp only [OrderBook.cancel_order, hidx, hfl, hfo]
          exact ⟨cancelStep_levelOK b.bids pr oid hmb L o hfl hfo, hma⟩
    · cases hfl : findLevel b.asks pr with
      | none =>
        simp only [OrderBook.cancel_order, hidx, hfl]
        exact ⟨hmb, hma⟩
      | some L =>
        cases hfo : findById L.queue oid with
        | none =>
          simp only [OrderBook.cancel_order, hidx, hfl, hfo]
          exact ⟨hmb, hma⟩
        | some o =>
          simp only [OrderBook.cancel_order, hidx, hfl, hfo]
          exact ⟨hmb, cancelStep_levelOK b.asks pr oid hma L o hfl hfo⟩

/-- Agreement of one index entry with the record it points at: the record
reachable through the entry's (side, price) locator carries that side and
price — the functional rendering of the C++ index storing a pointer to the
record itself (cross-entity invariant 1 of the data model). -/
def indexEntryAgrees (b : OrderBook) (e : Nat × Side × Nat) : Bool :=
  match findLevel (b.sideLevels e.2.1) e.2.2 with
  | none => true
  | some L =>
    match findById L.queue e.1 with
    | none => true
    | some o => decide (o.side = e.2.1) && decide (o.price = e.2.2)

/-- Index-record agreement for all entries of the order index. -/
def OrderBook.IndexAgrees (b : OrderBook) : Prop :=
  ∀ e ∈ b.orders, indexEntryAgrees b e = true

instance (b : OrderBook) : Decidable b.IndexAgrees := by
  unfold OrderBook.IndexAgrees; infer_instance

/-- The level update performed by modify_order's reduce branch preserves
the per-level cache invariant. -/
theorem modifyStep_levelOK (levels : Levels) (pr oid nq : Nat) (o : Order)
    (h : ∀ e ∈ levels, levelOK e) (L : PriceLevel)
    (hfl : findLevel levels pr = some L) (hfo : findById L.queue oid = some o)
    (h1 : o.filled_quantity < nq) (h2 : nq < o.quantity) :
    ∀ e ∈ setLevel levels pr { L with queue := updateQuantityFirst L.queue oid nq, total_quantity := L.total_quantity - (o.remaining - (nq - o.filled_quantity)) }, levelOK e := by
  intro e he
  rcases mem_setLevel _ _ _ e he with he2 | rfl
  · exact h e he2
  · obtain ⟨hne, hcnt, htot⟩ := h (pr, L) (findLevel_mem _ _ _ hfl)
    have hsum := updateQuantityFirst_sum L.queue oid nq o hfo
    have hmem := remaining_le_sum L.queue o (findById_mem _ _ _ hfo)
    have hlen := updateQuantityFirst_length L.queue oid nq
    have hcnt2 : L.order_count = L.queue.length := hcnt
    have htot2 : L.total_quantity = (L.queue.map Order.remaining).sum := htot
    have hrem : o.remaining = o.quantity - o.filled_quantity := rfl
    refine ⟨?_, ?_, ?_⟩
    · show updateQuantityFirst L.queue oid nq ≠ []
      intro hh
      have : L.queue.length = 0 := by rw [← hlen, hh]; rfl
      exact hne (List.eq_nil_of_length_eq_zero this)
    · show L.order_count = (updateQuantityFirst L.queue oid nq).length
      omega
    · show L.total_quantity - (o.remaining - (nq - o.filled_quantity))
        = ((updateQuantityFirst L.queue oid nq).map Order.remaining).sum
      omega

/-- modify_order preserves the per-level cache invariant (the index must
agree with the records it points at, which every reachable book does). -/
theorem modify_order_levelsWF (b : OrderBook) (oid nq : Nat) (h : b.LevelsWF)
    (hagree : b.IndexAgrees) :
    (b.modify_order oid nq).2.LevelsWF := by
  obtain ⟨hmb, hma⟩ := h
  cases hidx : lookupIndex b.orders oid with
  | none =>
    simp only [OrderBook.modify_order, OrderBook.findOrder, hidx]
    exact ⟨hmb, hma⟩
  | some sv =>
    obtain ⟨s, pr⟩ := sv
    cases s
    · cases hfl : findLevel b.bids pr with
      | none =>
        simp only [OrderBook.modify_order, OrderBook.findOrder, hidx, hfl]
        exact ⟨hmb, hma⟩
      | some L =>
        cases hfd : findById L.queue oid with
        | none =>
          simp only [OrderBook.modify_order, OrderBook.findOrder, hidx, hfl, hfd]
          exact ⟨hmb, hma⟩
        | some o =>
          have hentry := hagree (oid, (Side.Buy, pr)) (lookupIndex_mem _ _ _ hidx)
          simp only [indexEntryAgrees, OrderBook.sideLevels, hfl, hfd,
            Bool.and_eq_true, decide_eq_true_eq] at hentry
          obtain ⟨hos, hop⟩ := hentry
          simp only [OrderBook.modify_order, OrderBook.findOrder, hidx, hfl, hfd]
          by_cases hc1 : nq ≤ o.filled_quantity
          · simp only [hc1, if_true, ite_true]
            exact cancel_order_levelsWF b oid ⟨hmb, hma⟩
          · simp only [hc1, if_false, ite_false]
            by_cases hc2 : nq < o.quantity
            · simp only [hc2, if_true, ite_true, hos, hop, hfl]
              exact ⟨modifyStep_levelOK b.bids pr oid nq o hmb L hfl hfd
                (by omega) hc2, hma⟩
            · simp only [hc2, if_false, ite_false]
              by_cases hc3 : o.quantity < nq
              · simp only [hc3, if_true, ite_true]
                exact add_order_levelsWF _ _ _ _ _
                  (cancel_order_levelsWF b oid ⟨hmb, hma⟩)
              · simp only [hc3, if_false, ite_false]
                exact ⟨hmb, hma⟩
    · cases hfl : findLevel b.asks pr with
      | none =>
        simp only [OrderBook.modify_order, OrderBook.findOrder, hidx, hfl]
        exact ⟨hmb, hma⟩
      | some L =>
        cases hfd : findById L.queue oid with
        | none =>
          simp only [OrderBook.modify_order, OrderBook.findOrder, hidx, hfl, hfd]
          exact ⟨hmb, hma⟩
        | some o =>
          have hentry := hagree (oid, (Side.Sell, pr)) (lookupIndex_mem _ _ _ hidx)
          simp only [indexEntryAgrees, OrderBook.sideLevels, hfl, hfd,
            Bool.and_eq_true, decide_eq_true_eq] at hentry
          obtain ⟨hos, hop⟩ := hentry
          simp only [OrderBook.modify_order, OrderBook.findOrder, hidx, hfl, hfd]
          by_cases hc1 : nq ≤ o.filled_quantity
          · simp only [hc1, if_true, ite_true]
            exact cancel_order_levelsWF b oid ⟨hmb, hma⟩
          · simp only [hc1, if_false, ite_false]
            by_cases hc2 : nq < o.quantity
            · simp only [hc2, if_true, ite_true, hos, hop, hfl]
              exact ⟨hmb, modifyStep_levelOK b.asks pr oid nq o hma L hfl hfd
                (by omega) hc2⟩
            · simp only [hc2, if_false, ite_false]
              by_cases hc3 : o.quantity < nq
              · simp only [hc3, if_true, ite_true]
                exact add_order_levelsWF _ _ _ _ _
                  (cancel_order_levelsWF b oid ⟨hmb, hma⟩)
              · simp only [hc3, if_false, ite_false]
                exact ⟨hmb, hma⟩

/-- Claim C6: after every public operation — add_order (any side, type,
price, quantity), cancel_order, modify_order — every price level present in
either side map has a non-empty queue, a cached order_count equal to its
queue length, and a cached total_quantity equal to the sum of remaining
quantities over its queued orders; starting from any book satisfying the
same invariant (with, for modify_order, the order index agreeing with the
records it points at — cross-entity invariant 1, true of every reachable
book). -/
theorem claim_C6_cache_invariants_preserved (b : OrderBook) (h : b.LevelsWF)
    (hagree : b.IndexAgrees) (side : Side) (type : OrderType)
    (price qty oid nq : Nat) :
    (b.add_order side type price qty).2.LevelsWF ∧
    (b.cancel_order oid).2.LevelsWF ∧
    (b.modify_order oid nq).2.LevelsWF :=
  ⟨add_order_levelsWF b side type price qty h,
   cancel_order_levelsWF b oid h,
   modify_order_levelsWF b oid nq h hagree⟩

/-- Witness for C6 on a concrete populated book. -/
theorem claim_C6_witness :
    bkOneAsk10000.LevelsWF ∧ bkOneAsk10000.IndexAgrees ∧
    ((bkOneAsk10000.add_order Side.Buy OrderType.Limit 10000 20).2.LevelsWF ∧
     (bkOneAsk10000.cancel_order 1).2.LevelsWF ∧
     (bkOneAsk10000.modify_order 1 30).2.LevelsWF) :=
  ⟨by decide, by decide,
   claim_C6_cache_invariants_preserved bkOneAsk10000 (by decide) (by decide)
     Side.Buy OrderType.Limit 10000 20 1 30⟩

/- ------------------------------------------------------------------ -/
/- Claim C9.                                                           -/
/- ------------------------------------------------------------------ -/

/-- Strictly ascending keys: the std::map representation invariant of the
side maps. -/
def sortedLevels (m : Levels) : Prop := m.Pairwise (fun a b => a.1 < b.1)

instance (m : Levels) : Decidable (sortedLevels m) := by
  unfold sortedLevels; infer_instance

/-- Freshness of an id in a book: absent from the index and every queue
(true of the next issued id in every reachable book). -/
def OrderBook.idFresh (b : OrderBook) (oid : Nat) : Prop :=
  lookupIndex b.orders oid = none ∧
  (∀ e ∈ b.bids, ∀ o ∈ e.2.queue, o.id ≠ oid) ∧
  (∀ e ∈ b.asks, ∀ o ∈ e.2.queue, o.id ≠ oid)

instance (b : OrderBook) (oid : Nat) : Decidable (b.idFresh oid) := by
  unfold OrderBook.idFresh; infer_instance

/-- A limit price that does not cross the opposite side: every opposite
level triggers the crossability break. -/
def OrderBook.noncrossing (b : OrderBook) (side : Side) (price : Nat) : Prop :=
  match side with
  | Side.Buy => ∀ e ∈ b.asks, price < e.1
  | Side.Sell => ∀ e ∈ b.bids, e.1 < price

instance (b : OrderBook) (side : Side) (price : Nat) :
    Decidable (b.noncrossing side price) := by
  cases side <;> (unfold OrderBook.noncrossing; infer_instance)

/-- A key below every key of the map is absent from it. -/
theorem findLevel_none_of_all_lt (m : Levels) (p : Nat) (h : ∀ e ∈ m, p < e.1) :
    findLevel m p = none := by
  induction m with
  | nil => rfl
  | cons e rest ih =>
    obtain ⟨pe, Le⟩ := e
    have h1 := h (pe, Le) (by simp)
    have hne : ¬ pe = p := by simp at h1; omega
    simp only [findLevel, hne, if_false, ite_false]
    exact ih (fun x hx => h x (by simp [hx]))

/-- On a sorted map, inserting at a present key is a write-back of that
level with the order appended. -/
theorem insertLevel_found (m : Levels) (o : Order) (L : PriceLevel)
    (hs : sortedLevels m) (h : findLevel m o.price = some L) :
    insertLevel m o = setLevel m o.price (L.add_order o) := by
  induction m with
  | nil => simp [findLevel] at h
  | cons e rest ih =>
    obtain ⟨pe, Le⟩ := e
    rw [sortedLevels, List.pairwise_cons] at hs
    obtain ⟨hlt, hs2⟩ := hs
    by_cases h1 : o.price < pe
    · exfalso
      have hnone : findLevel ((pe, Le) :: rest) o.price = none := by
        apply findLevel_none_of_all_lt
        intro e2 he2
        rcases List.mem_cons.mp he2 with rfl | he3
        · exact h1
        · have := hlt e2 he3
          simp at this
          omega
      rw [hnone] at h
      cases h
    · by_cases h2 : o.price = pe
      · have hpe : pe = o.price := h2.symm
        subst hpe
        simp only [findLevel, eq_self_iff_true, if_true, ite_true,
          Option.some.injEq] at h
        subst h
        simp [insertLevel, setLevel]
      · have hpe : ¬ pe = o.price := fun hh => h2 hh.symm
        simp only [findLevel, hpe, if_false, ite_false] at h
        simp only [insertLevel, h1, h2, if_false, ite_false, setLevel, hpe]
        rw [ih hs2 h]

/-- Writing back the level found at a key is the identity. -/
theorem setLevel_self_eq (m : Levels) (p : Nat) (L : PriceLevel)
    (h : findLevel m p = some L) : setLevel m p L = m := by
  induction m with
  | nil => rfl
  | cons e rest ih =>
    obtain ⟨pe, Le⟩ := e
    by_cases hp : pe = p
    · simp only [findLevel, hp, if_true, ite_true, Option.some.injEq] at h
      simp [setLevel, hp, h]
    · simp only [findLevel, hp, if_false, ite_false] at h
      simp [setLevel, hp, ih h]

/-- Two successive write-backs at one key collapse to the second. -/
theorem setLevel_setLevel (m : Levels) (p : Nat) (X Y : PriceLevel) :
    setLevel (setLevel m p X) p Y = setLevel m p Y := by
  induction m with
  | nil => rfl
  | cons e rest ih =>
    obtain ⟨pe, Le⟩ := e
    by_cases hp : pe = p
    · simp [setLevel, hp]
    · simp [setLevel, hp, ih]

/-- Inserting at an absent key creates the singleton level there. -/
theorem findLevel_insertLevel_new (m : Levels) (o : Order)
    (h : findLevel m o.price = none) :
    findLevel (insertLevel m o) o.price
      = some ((PriceLevel.emptyAt o.price).add_order o) := by
  induction m with
  | nil => simp [insertLevel, findLevel]
  | cons e rest ih =>
    obtain ⟨pe, Le⟩ := e
    by_cases h1 : o.price < pe
    · simp [insertLevel, h1, findLevel]
    · by_cases h2 : o.price = pe
      · have hpe : pe = o.price := h2.symm
        simp [findLevel, hpe] at h
      · have hpe : ¬ pe = o.price := fun hh => h2 hh.symm
        simp only [findLevel, hpe, if_false, ite_false] at h
        simp only [insertLevel, h1, h2, if_false, ite_false, findLevel, hpe]
        exact ih h

/-- Erasing the key just inserted at an absent key restores the map. -/
theorem eraseLevel_insertLevel_new (m : Levels) (o : Order)
    (h : findLevel m o.price = none) :
    eraseLevel (insertLevel m o) o.price = m := by
  induction m with
  | nil => simp [insertLevel, eraseLevel]
  | cons e rest ih =>
    obtain ⟨pe, Le⟩ := e
    by_cases h1 : o.price < pe
    · simp [insertLevel, h1, eraseLevel]
    · by_cases h2 : o.price = pe
      · have hpe : pe = o.price := h2.symm
        simp [findLevel, hpe] at h
      · have hpe : ¬ pe = o.price := fun hh => h2 hh.symm
        simp only [findLevel, hpe, if_false, ite_false] at h
        simp only [insertLevel, h1, h2, if_false, ite_false, eraseLevel, hpe]
        rw [ih h]

/-- An order appended behind ids all different from its own is found by its
id. -/
theorem findById_append_fresh (q : List Order) (o : Order)
    (hfresh : ∀ x ∈ q, x.id ≠ o.id) :
    findById (q ++ [o]) o.id = some o := by
  induction q with
  | nil => simp [findById]
  | cons p rest ih =>
    have hp : ¬ p.id = o.id := hfresh p (by simp)
    simp only [List.cons_append, findById, hp, if_false, ite_false]
    exact ih (fun x hx => hfresh x (by simp [hx]))

/-- Unlinking the appended order restores the queue. -/
theorem removeFirstId_append_fresh (q : List Order) (o : Order)
    (hfresh : ∀ x ∈ q, x.id ≠ o.id) :
    removeFirstId (q ++ [o]) o.id = q := by
  induction q with
  | nil => simp [removeFirstId]
  | cons p rest ih =>
    have hp : ¬ p.id = o.id := hfresh p (by simp)
    simp only [List.cons_append, removeFirstId, hp, if_false, ite_false]
    exact congrArg (List.cons p) (ih (fun x hx => hfresh x (by simp [hx])))

/-- Erasing the entry just appended under a fresh id restores the index. -/
theorem eraseIndex_append_fresh (m : OrderIndex) (oid : Nat) (v : Side × Nat)
    (h : lookupIndex m oid = none) :
    eraseIndex (m ++ [(oid, v)]) oid = m := by
  induction m with
  | nil => simp [eraseIndex]
  | cons e rest ih =>
    by_cases he : e.1 = oid
    · simp [lookupIndex, he] at h
    · simp only [lookupIndex, he, if_false, ite_false] at h
      simp only [List.cons_append, eraseIndex, he, if_false, ite_false]
      exact congrArg (List.cons e) (ih h)

/-- PriceLevel::add_order then PriceLevel::remove_order of the same (fresh)
order is the identity on the level. -/
theorem level_add_remove (L : PriceLevel) (o : Order)
    (hfresh : ∀ x ∈ L.queue, x.id ≠ o.id) :
    (L.add_order o).remove_order o = L := by
  cases L with
  | mk pr tot cnt q =>
    simp only [PriceLevel.add_order, PriceLevel.remove_order] at *
    simp only [removeFirstId_append_fresh q o hfresh]
    simp

/-- Claim C9: submitting a non-crossing limit order (any quantity, either
side) and immediately cancelling the returned id restores the book to its
prior state — identical side maps, order index, pool occupancy, trade
count and total volume — with only the next-id and next-timestamp counters
advanced.  Hypotheses are the representation invariants of any reachable
book: a free pool slot, freshness of the next id, sorted side maps, and
no empty queue on the submission side. -/
theorem claim_C9_submit_cancel_roundtrip (b : OrderBook) (side : Side)
    (price qty : Nat)
    (hfc : b.pool.free_count ≠ 0)
    (hfresh : b.idFresh (b.next_id + 1))
    (hnc : b.noncrossing side price)
    (hsb : sortedLevels b.bids) (hsa : sortedLevels b.asks)
    (hq : ∀ e ∈ b.sideLevels side, e.2.queue ≠ []) :
    ∃ res b1, b.add_order side OrderType.Limit price qty = (some res, b1) ∧
      res.order_id = b.next_id + 1 ∧
      (b1.cancel_order res.order_id).2 =
        { b with next_id := b.next_id + 1,
                 timestamp_counter := b.timestamp_counter + 1 } := by
  obtain ⟨hfidx, hfbid, hfask⟩ := hfresh
  by_cases hq0 : qty = 0
  · subst hq0
    refine ⟨⟨b.next_id + 1, OrderStatus.Filled, 0, 0, []⟩, _,
      add_order_zero_qty b side price hfc, rfl, ?_⟩
    simp [OrderBook.cancel_order, hfidx]
  · cases side
    · -- Buy
      have hstop : ∀ e ∈ b.asks, crossStop
          (⟨b.next_id + 1, price, qty, 0, Side.Buy, OrderType.Limit, OrderStatus.Active,
            b.timestamp_counter + 1⟩ : Order) e.1 = true := by
        intro e he
        have := hnc e he
        simp only [crossStop, Bool.and_eq_true, decide_eq_true_eq]
        exact ⟨by decide, this⟩
      have hm := matchLevels_allStop _ (b.timestamp_counter + 1) b.asks hstop
      have hnf : (⟨b.next_id + 1, price, qty, 0, Side.Buy, OrderType.Limit,
          OrderStatus.Active, b.timestamp_counter + 1⟩ : Order).is_filled = false := by
        simp [Order.is_filled]; omega
      have heq : b.add_order Side.Buy OrderType.Limit price qty =
          (some ⟨b.next_id + 1, OrderStatus.Active, 0, qty, []⟩,
           ⟨insertLevel b.bids ⟨b.next_id + 1, price, qty, 0, Side.Buy, OrderType.Limit,
              OrderStatus.Active, b.timestamp_counter + 1⟩,
            b.asks, b.orders ++ [(b.next_id + 1, (Side.Buy, price))], b.pool.allocate,
            b.next_id + 1, b.timestamp_counter + 1, b.trade_count, b.total_volume⟩) := by
        simp [OrderBook.add_order, hfc, OrderBook.match_order, hm, hnf, sumQty,
              Order.remaining, insertIndex_fresh _ _ _ hfidx]
      refine ⟨_, _, heq, rfl, ?_⟩
      have hlook : lookupIndex (b.orders ++ [(b.next_id + 1, (Side.Buy, price))])
          (b.next_id + 1) = some (Side.Buy, price) :=
        lookupIndex_append_self _ _ _ hfidx
      have hpool : b.pool.allocate.deallocate = b.pool := pool_alloc_dealloc _ hfc
      have hidxer : eraseIndex (b.orders ++ [(b.next_id + 1, (Side.Buy, price))])
          (b.next_id + 1) = b.orders := eraseIndex_append_fresh _ _ _ hfidx
      cases hfl : findLevel b.bids price with
      | none =>
        have h2 := findLevel_insertLevel_new b.bids
          ⟨b.next_id + 1, price, qty, 0, Side.Buy, OrderType.Limit, OrderStatus.Active,
            b.timestamp_counter + 1⟩ hfl
        have h3 := eraseLevel_insertLevel_new b.bids
          ⟨b.next_id + 1, price, qty, 0, Side.Buy, OrderType.Limit, OrderStatus.Active,
            b.timestamp_counter + 1⟩ hfl
        simp only [OrderBook.cancel_order, hlook, h2, findById,
          PriceLevel.add_order, PriceLevel.emptyAt, List.nil_append, if_true, ite_true,
          PriceLevel.remove_order, removeFirstId]
        simp [h3, hpool, hidxer]
      | some L =>
        have hmemL := findLevel_mem _ _ _ hfl
        have hfq : ∀ x ∈ L.queue, x.id ≠ b.next_id + 1 := hfbid (price, L) hmemL
        have hins := insertLevel_found b.bids
          ⟨b.next_id + 1, price, qty, 0, Side.Buy, OrderType.Limit, OrderStatus.Active,
            b.timestamp_counter + 1⟩ L hsb hfl
        have hfind2 : findLevel (insertLevel b.bids
            ⟨b.next_id + 1, price, qty, 0, Side.Buy, OrderType.Limit, OrderStatus.Active,
              b.timestamp_counter + 1⟩) price
            = some (L.add_order ⟨b.next_id + 1, price, qty, 0, Side.Buy,
                OrderType.Limit, OrderStatus.Active, b.timestamp_counter + 1⟩) := by
          rw [hins]
          exact findLevel_setLevel_self _ _ _ _ hfl
        have hbyid : findById (L.add_order ⟨b.next_id + 1, price, qty, 0, Side.Buy,
            OrderType.Limit, OrderStatus.Active, b.timestamp_counter + 1⟩).queue
            (b.next_id + 1)
            = some ⟨b.next_id + 1, price, qty, 0, Side.Buy, OrderType.Limit,
                OrderStatus.Active, b.timestamp_counter + 1⟩ := by
          simp only [PriceLevel.add_order]
          exact findById_append_fresh _ _ hfq
        have hrem := level_add_remove L
          ⟨b.next_id + 1, price, qty, 0, Side.Buy, OrderType.Limit, OrderStatus.Active,
            b.timestamp_counter + 1⟩ hfq
        have hLne : L.queue ≠ [] := hq (price, L) hmemL
        simp only [OrderBook.cancel_order, hlook, hfind2, hbyid, hrem, hLne,
          if_false, ite_false]
        rw [hins]
        rw [setLevel_setLevel, setLevel_self_eq _ _ _ hfl]
        simp [hpool, hidxer]
    · -- Sell
      have hstop : ∀ e ∈ b.bids.reverse, crossStop
          (⟨b.next_id + 1, price, qty, 0, Side.Sell, OrderType.Limit, OrderStatus.Active,
            b.timestamp_counter + 1⟩ : Order) e.1 = true := by
        intro e he
        have := hnc e (List.mem_reverse.mp he)
        simp only [crossStop, Bool.and_eq_true, decide_eq_true_eq]
        exact ⟨by decide, this⟩
      have hm := matchLevels_allStop _ (b.timestamp_counter + 1) b.bids.reverse hstop
      have hnf : (⟨b.next_id + 1, price, qty, 0, Side.Sell, OrderType.Limit,
          OrderStatus.Active, b.timestamp_counter + 1⟩ : Order).is_filled = false := by
        simp [Order.is_filled]; omega
      have heq : b.add_order Side.Sell OrderType.Limit price qty =
          (some ⟨b.next_id + 1, OrderStatus.Active, 0, qty, []⟩,
           ⟨b.bids,
            insertLevel b.asks ⟨b.next_id + 1, price, qty, 0, Side.Sell, OrderType.Limit,
              OrderStatus.Active, b.timestamp_counter + 1⟩,
            b.orders ++ [(b.next_id + 1, (Side.Sell, price))], b.pool.allocate,
            b.next_id + 1, b.timestamp_counter + 1, b.trade_count, b.total_volume⟩) := by
        simp [OrderBook.add_order, hfc, OrderBook.match_order, hm, hnf, sumQty,
              Order.remaining, insertIndex_fresh _ _ _ hfidx]
      refine ⟨_, _, heq, rfl, ?_⟩
      have hlook : lookupIndex (b.orders ++ [(b.next_id + 1, (Side.Sell, price))])
          (b.next_id + 1) = some (Side.Sell, price) :=
        lookupIndex_append_self _ _ _ hfidx
      have hpool : b.pool.allocate.deallocate = b.pool := pool_alloc_dealloc _ hfc
      have hidxer : eraseIndex (b.orders ++ [(b.next_id + 1, (Side.Sell, price))])
          (b.next_id + 1) = b.orders := eraseIndex_append_fresh _ _ _ hfidx
      cases hfl : findLevel b.asks price with
      | none =>
        have h2 := findLevel_insertLevel_new b.asks
          ⟨b.next_id + 1, price, qty, 0, Side.Sell, OrderType.Limit, OrderStatus.Active,
            b.timestamp_counter + 1⟩ hfl
        have h3 := eraseLevel_insertLevel_new b.asks
          ⟨b.next_id + 1, price, qty, 0, Side.Sell, OrderType.Limit, OrderStatus.Active,
            b.timestamp_counter + 1⟩ hfl
        simp only [OrderBook.cancel_order, hlook, h2, findById,
          PriceLevel.add_order, PriceLevel.emptyAt, List.nil_append, if_true, ite_true,
          PriceLevel.remove_order, removeFirstId]
        simp [h3, hpool, hidxer]
      | some L =>
        have hmemL := findLevel_mem _ _ _ hfl
        have hfq : ∀ x ∈ L.queue, x.id ≠ b.next_id + 1 := hfask (price, L) hmemL
        have hins := insertLevel_found b.asks
          ⟨b.next_id + 1, price, qty, 0, Side.Sell, OrderType.Limit, OrderStatus.Active,
            b.timestamp_counter + 1⟩ L hsa hfl
        have hfind2 : findLevel (insertLevel b.asks
            ⟨b.next_id + 1, price, qty, 0, Side.Sell, OrderType.Limit, OrderStatus.Active,
              b.timestamp_counter + 1⟩) price
            = some (L.add_order ⟨b.next_id + 1, price, qty, 0, Side.Sell,
                OrderType.Limit, OrderStatus.Active, b.timestamp_counter + 1⟩) := by
          rw [hins]
          exact findLevel_setLevel_self _ _ _ _ hfl
        have hbyid : findById (L.add_order ⟨b.next_id + 1, price, qty, 0, Side.Sell,
            OrderType.Limit, OrderStatus.Active, b.timestamp_counter + 1⟩).queue
            (b.next_id + 1)
            = some ⟨b.next_id + 1, price, qty, 0, Side.Sell, OrderType.Limit,
                OrderStatus.Active, b.timestamp_counter + 1⟩ := by
          simp only [PriceLevel.add_order]
          exact findById_append_fresh _ _ hfq
        have hrem := level_add_remove L
          ⟨b.next_id + 1, price, qty, 0, Side.Sell, OrderType.Limit, OrderStatus.Active,
            b.timestamp_counter + 1⟩ hfq
        have hLne : L.queue ≠ [] := hq (price, L) hmemL
        simp only [OrderBook.cancel_order, hlook, hfind2, hbyid, hrem, hLne,
          if_false, ite_false]
        rw [hins]
        rw [setLevel_setLevel, setLevel_self_eq _ _ _ hfl]
        simp [hpool, hidxer]

/-- Witness for C9: a non-crossing buy into a book with one ask. -/
theorem claim_C9_witness :
    ∃ res b1, bkOneAsk.add_order Side.Buy OrderType.Limit 10000 40
        = (some res, b1) ∧
      res.order_id = 2 ∧
      (b1.cancel_order res.order_id).2 =
        { bkOneAsk with next_id := 2, timestamp_counter := 2 } :=
  claim_C9_submit_cancel_roundtrip bkOneAsk Side.Buy 10000 40 (by decide) (by decide)
    (by decide) (by decide) (by decide) (by decide)

/- ------------------------------------------------------------------ -/
/- Claim C7: price-time priority of the trade sequence.                -/
/- ------------------------------------------------------------------ -/

/-- Orders in every queue carry the price of their level (true of every
reachable book: orders are inserted at the level keyed by their price). -/
def pricesMatch (m : Levels) : Prop := ∀ e ∈ m, ∀ o ∈ e.2.queue, o.price = e.1

instance (m : Levels) : Decidable (pricesMatch m) := by
  unfold pricesMatch; infer_instance

/-- Queues strictly sorted by timestamp from head (oldest) to tail. -/
def timeSorted (m : Levels) : Prop :=
  ∀ e ∈ m, e.2.queue.Pairwise (fun a b => a.timestamp < b.timestamp)

instance (m : Levels) : Decidable (timeSorted m) := by
  unfold timeSorted; infer_instance

/-- No two orders in one queue share an id. -/
def nodupIds (m : Levels) : Prop := ∀ e ∈ m, (e.2.queue.map Order.id).Nodup

instance (m : Levels) : Decidable (nodupIds m) := by
  unfold nodupIds; infer_instance

/-- The timestamp of the passive party of a trade, read from a side map:
locate the level at the trade's price, then the resting order with the
trade's passive-side id. -/
def passiveTs (m : Levels) (s : Side) (t : Trade) : Nat :=
  match findLevel m t.price with
  | none => 0
  | some L =>
    match findById L.queue (passiveId s t) with
    | none => 0
    | some o => o.timestamp

/-- The passive party recorded in a trade is the passive order matched. -/
theorem mkTrade_passiveId (agg p : Order) (qty ts : Nat) :
    passiveId agg.side (mkTrade agg p qty ts) = p.id := by
  cases h : agg.side <;> simp [mkTrade, passiveId, h]

/-- The passive ids of the inner loop's trades are the ids of an initial
segment of the queue, in queue order (FIFO). -/
theorem matchQueue_passive_ids (agg : Order) (ts tot cnt : Nat) (q : List Order) :
    (matchQueue agg ts tot cnt q).trades.map (passiveId agg.side)
      = (q.take (matchQueue agg ts tot cnt q).trades.length).map Order.id := by
  induction q generalizing agg tot cnt with
  | nil => simp [matchQueue]
  | cons p rest ih =>
    by_cases hz : agg.remaining = 0
    · simp [matchQueue, hz]
    · have hside : ({ agg with filled_quantity := agg.filled_quantity + min agg.remaining p.remaining } : Order).side = agg.side := rfl
      have ihx := ih { agg with filled_quantity := agg.filled_quantity + min agg.remaining p.remaining }
      rw [hside] at ihx
      by_cases hf : ({ p with filled_quantity := p.filled_quantity + min agg.remaining p.remaining } : Order).is_filled = true
      · simp only [matchQueue, hz, ite_false, if_false, hf, if_true, ite_true,
          eq_self_iff_true, List.map_cons, List.length_cons, List.take_succ_cons]
        rw [mkTrade_passiveId agg p _ _]
        exact congrArg (List.cons p.id) (ihx _ _)
      · simp only [matchQueue, hz, ite_false, if_false, hf, Bool.false_eq_true,
          List.map_cons, List.length_cons, List.take_succ_cons]
        rw [mkTrade_passiveId agg p _ _]
        exact congrArg (List.cons p.id) (ihx _ _)

/-- In a queue with no duplicate ids, looking up the id of the node at a
position finds that node. -/
theorem findById_get_of_nodup (q : List Order) (hnd : (q.map Order.id).Nodup)
    (i : Fin q.length) : findById q (q.get i).id = some (q.get i) := by
  induction q with
  | nil => exact absurd i.2 (by simp)
  | cons p rest ih =>
    rw [List.map_cons, List.nodup_cons] at hnd
    obtain ⟨hnotin, hnd2⟩ := hnd
    cases i using Fin.cases with
    | zero => simp [findById]
    | succ j =>
      have hmem : (rest.get j).id ∈ rest.map Order.id :=
        List.mem_map_of_mem Order.id (List.get_mem rest j.1 j.2)
      have hne : ¬ p.id = (rest.get j).id := fun hh => hnotin (hh ▸ hmem)
      show findById (p :: rest) (rest.get j).id = some (rest.get j)
      simp only [findById]
      rw [if_neg hne]
      exact ih hnd2 j

/-- On a sorted map, each entry is the one its key finds. -/
theorem findLevel_of_sorted_mem (m : Levels) (hs : sortedLevels m) (p : Nat)
    (L : PriceLevel) (h : (p, L) ∈ m) : findLevel m p = some L := by
  induction m with
  | nil => simp at h
  | cons e rest ih =>
    obtain ⟨pe, Le⟩ := e
    rw [sortedLevels, List.pairwise_cons] at hs
    obtain ⟨hlt, hs2⟩ := hs
    rcases List.mem_cons.mp h with heq | hmem
    · obtain ⟨h1, h2⟩ := Prod.mk.injEq .. ▸ heq
      subst h1
      subst h2
      simp [findLevel]
    · have hgt := hlt (p, L) hmem
      simp only at hgt
      have hne : ¬ pe = p := by omega
      simp only [findLevel, hne, if_false, ite_false]
      exact ih hs2 hmem

/-- Shape of the outer loop's trade list at a crossable non-empty head
level: the head level's trades followed by the remaining levels' trades. -/
theorem matchLevels_trades_cons (agg : Order) (ts : Nat) (pr : Nat) (L : PriceLevel)
    (rest : Levels) (hz : ¬ agg.remaining = 0) (hc : ¬ crossStop agg pr = true) :
    (matchLevels agg ts ((pr, L) :: rest)).trades
      = (matchQueue agg ts L.total_quantity L.order_count L.queue).trades
        ++ (matchLevels (matchQueue agg ts L.total_quantity L.order_count L.queue).agg
            ts rest).trades := by
  simp only [matchLevels, hz, ite_false, if_false, hc, Bool.false_eq_true]
  split <;> rfl

/-- Price-time priority of the outer matching loop: with the levels
supplied in strictly best-first key order (pless), every queue priced at
its level, timestamp-sorted and id-unique, the trade sequence is ordered
by price across levels and by strict passive timestamp within one price. -/
theorem matchLevels_price_time (pless : Nat → Nat → Prop)
    (hirr : ∀ x, ¬ pless x x)
    (base : Levels) (agg : Order) (ts : Nat) (cur : Levels)
    (hkeys : cur.Pairwise (fun a b => pless a.1 b.1))
    (hbase : ∀ e ∈ cur, findLevel base e.1 = some e.2)
    (hpm : ∀ e ∈ cur, ∀ o ∈ e.2.queue, o.price = e.1)
    (hts : ∀ e ∈ cur, e.2.queue.Pairwise (fun a b => a.timestamp < b.timestamp))
    (hnd : ∀ e ∈ cur, (e.2.queue.map Order.id).Nodup) :
    (∀ t ∈ (matchLevels agg ts cur).trades, ∃ e ∈ cur, t.price = e.1) ∧
    (matchLevels agg ts cur).trades.Pairwise (fun t1 t2 =>
      (pless t1.price t2.price ∨ t1.price = t2.price) ∧
      (t1.price = t2.price →
        passiveTs base agg.side t1 < passiveTs base agg.side t2)) := by
  induction cur generalizing agg with
  | nil => exact ⟨by simp [matchLevels], by simp [matchLevels]⟩
  | cons e0 rest ihc =>
    obtain ⟨pr, L⟩ := e0
    rw [List.pairwise_cons] at hkeys
    obtain ⟨hklt, hkeys2⟩ := hkeys
    have hmem0 : ((pr, L) : Nat × PriceLevel) ∈ (pr, L) :: rest := by simp
    have hbL := hbase (pr, L) hmem0
    have hpmL := hpm (pr, L) hmem0
    have htsL := hts (pr, L) hmem0
    have hndL := hnd (pr, L) hmem0
    by_cases hz : agg.remaining = 0
    · rw [matchLevels_zero_rem _ _ _ hz]
      exact ⟨by simp, by simp⟩
    · by_cases hc : crossStop agg pr = true
      · have hstop : matchLevels agg ts ((pr, L) :: rest)
            = ⟨agg, (pr, L) :: rest, [], []⟩ := by
          simp [matchLevels, hz, hc]
        rw [hstop]
        exact ⟨by simp, by simp⟩
      · rw [matchLevels_trades_cons agg ts pr L rest hz hc]
        have hside := matchQueue_agg_side agg ts L.total_quantity L.order_count L.queue
        obtain ⟨ih1, ih2⟩ := ihc
          (matchQueue agg ts L.total_quantity L.order_count L.queue).agg
          hkeys2 (fun e he => hbase e (by simp [he])) (fun e he => hpm e (by simp [he]))
          (fun e he => hts e (by simp [he])) (fun e he => hnd e (by simp [he]))
        rw [hside] at ih2
        have hT1p : ∀ t ∈ (matchQueue agg ts L.total_quantity L.order_count
            L.queue).trades, t.price = pr := by
          intro t ht
          obtain ⟨o, ho, h1, h2⟩ := matchQueue_trades_passive agg ts _ _ _ t ht
          rw [h2]
          exact hpmL o ho
        refine ⟨?_, ?_⟩
        · intro t ht
          rcases List.mem_append.mp ht with ht1 | ht1
          · exact ⟨(pr, L), by simp, hT1p t ht1⟩
          · obtain ⟨e, he, hp⟩ := ih1 t ht1
            exact ⟨e, by simp [he], hp⟩
        · refine List.pairwise_append.mpr ⟨?_, ih2, ?_⟩
          · -- within the head level: equal prices, strictly increasing
            -- passive timestamps in queue (FIFO) order
            rw [List.pairwise_iff_get]
            intro i j hij
            have hids := matchQueue_passive_ids agg ts L.total_quantity
              L.order_count L.queue
            have hlenle : (matchQueue agg ts L.total_quantity L.order_count
                L.queue).trades.length ≤ L.queue.length := by
              have hlen := congrArg List.length hids
              simp only [List.length_map, List.length_take] at hlen
              omega
            have hi : i.1 < L.queue.length := lt_of_lt_of_le i.2 hlenle
            have hj : j.1 < L.queue.length := lt_of_lt_of_le j.2 hlenle
            have hgetP : ∀ (k : Fin (matchQueue agg ts L.total_quantity L.order_count
                  L.queue).trades.length) (hk : k.1 < L.queue.length),
                passiveId agg.side ((matchQueue agg ts L.total_quantity L.order_count
                    L.queue).trades.get k)
                  = (L.queue.get ⟨k.1, hk⟩).id := by
              intro k hk
              have h1 := List.get_of_eq hids ⟨k.1, by simp [k.2]⟩
              simpa using h1
            have hcomp : ∀ (k : Fin (matchQueue agg ts L.total_quantity L.order_count
                  L.queue).trades.length) (hk : k.1 < L.queue.length),
                passiveTs base agg.side ((matchQueue agg ts L.total_quantity
                    L.order_count L.queue).trades.get k)
                  = (L.queue.get ⟨k.1, hk⟩).timestamp := by
              intro k hk
              have hp := hT1p _ (List.get_mem _ k.1 k.2)
              simp only [passiveTs, hp, hbL]
              rw [hgetP k hk, findById_get_of_nodup L.queue hndL ⟨k.1, hk⟩]
            refine ⟨?_, ?_⟩
            · right
              rw [hT1p _ (List.get_mem _ i.1 i.2), hT1p _ (List.get_mem _ j.1 j.2)]
            · intro _
              rw [hcomp i hi, hcomp j hj]
              exact List.pairwise_iff_get.mp htsL ⟨i.1, hi⟩ ⟨j.1, hj⟩ hij
          · -- across levels: strictly better price first
            intro a ha b hb
            obtain ⟨e, he, hbp⟩ := ih1 b hb
            have hap := hT1p a ha
            have hplt : pless pr e.1 := by
              have := hklt e he
              simpa using this
            constructor
            · left
              rw [hap, hbp]
              exact hplt
            · intro hpe
              exfalso
              rw [hap, hbp] at hpe
              exact hirr e.1 (hpe ▸ hplt)

/-- Claim C7: the trades of one submission are ordered by strict price
priority across levels — most aggressive opposite price first, so
ascending trade prices for a buy and descending for a sell, strictly
between distinct levels — and, within one price level, by strict FIFO
order of the resting orders' timestamps (oldest first), under the
representation invariants of a reachable book: sorted side maps, queue
orders priced at their level, timestamp-sorted queues, and no duplicate
ids within a queue. -/
theorem claim_C7_price_time_priority (b : OrderBook) (side : Side)
    (type : OrderType) (price qty : Nat) (res : OrderResult) (b1 : OrderBook)
    (hsb : sortedLevels b.bids) (hsa : sortedLevels b.asks)
    (hpm : pricesMatch (b.oppLevels side))
    (hts : timeSorted (b.oppLevels side))
    (hnd : nodupIds (b.oppLevels side))
    (h : b.add_order side type price qty = (some res, b1)) :
    res.trades.Pairwise (fun t1 t2 =>
      (match side with
       | Side.Buy => t1.price ≤ t2.price
       | Side.Sell => t2.price ≤ t1.price) ∧
      (t1.price = t2.price →
        passiveTs (b.oppLevels side) side t1
          < passiveTs (b.oppLevels side) side t2)) := by
  by_cases hfc : b.pool.free_count = 0
  · simp [OrderBook.add_order, hfc] at h
  · have hres : res.trades = (b.match_order
        ⟨b.next_id + 1, price, qty, 0, side, type, OrderStatus.Active,
          b.timestamp_counter + 1⟩ (b.timestamp_counter + 1)).trades := by
      simp only [OrderBook.add_order, hfc, if_false, ite_false] at h
      split at h <;> [skip; split at h] <;>
        (simp only [Prod.mk.injEq, Option.some.injEq] at h
         obtain ⟨h1, -⟩ := h
         rw [← h1])
    rw [hres]
    cases side with
    | Buy =>
      have hmain := matchLevels_price_time (fun x y => x < y)
        (fun x => Nat.lt_irrefl x) b.asks
        ⟨b.next_id + 1, price, qty, 0, Side.Buy, type, OrderStatus.Active,
          b.timestamp_counter + 1⟩ (b.timestamp_counter + 1) b.asks hsa
        (fun e he => findLevel_of_sorted_mem b.asks hsa e.1 e.2 he)
        hpm hts hnd
      refine List.Pairwise.imp ?_ hmain.2
      intro t1 t2 h12
      refine ⟨?_, h12.2⟩
      rcases h12.1 with hlt | heq
      · exact Nat.le_of_lt hlt
      · exact Nat.le_of_eq heq
    | Sell =>
      have hkeysr : (b.bids.reverse).Pairwise (fun a b => b.1 < a.1) :=
        List.pairwise_reverse.mpr hsb
      have hmain := matchLevels_price_time (fun x y => y < x)
        (fun x => Nat.lt_irrefl x) b.bids
        ⟨b.next_id + 1, price, qty, 0, Side.Sell, type, OrderStatus.Active,
          b.timestamp_counter + 1⟩ (b.timestamp_counter + 1) b.bids.reverse hkeysr
        (fun e he => findLevel_of_sorted_mem b.bids hsb e.1 e.2 (List.mem_reverse.mp he))
        (fun e he => hpm e (List.mem_reverse.mp he))
        (fun e he => hts e (List.mem_reverse.mp he))
        (fun e he => hnd e (List.mem_reverse.mp he))
      refine List.Pairwise.imp ?_ hmain.2
      intro t1 t2 h12
      refine ⟨?_, h12.2⟩
      rcases h12.1 with hlt | heq
      · exact Nat.le_of_lt hlt
      · exact Nat.le_of_eq heq.symm

/-- Book used by the C7 witness: asks 10000 x 30 (id 1), 10000 x 40
(id 2, younger at the same price), 10100 x 50 (id 3). -/
def bkSweep : OrderBook :=
  (((((OrderBook.init 16).add_order Side.Sell OrderType.Limit 10000 30).2).add_order
      Side.Sell OrderType.Limit 10000 40).2.add_order
      Side.Sell OrderType.Limit 10100 50).2

/-- Witness for C7: a buy for 100 at 10100 sweeps both 10000 orders in
FIFO order and then the 10100 level. -/
theorem claim_C7_witness :
    ((bkSweep.add_order Side.Buy OrderType.Limit 10100 100).1.getD
        ⟨0, OrderStatus.New, 0, 0, []⟩).trades.Pairwise (fun t1 t2 =>
      (match Side.Buy with
       | Side.Buy => t1.price ≤ t2.price
       | Side.Sell => t2.price ≤ t1.price) ∧
      (t1.price = t2.price →
        passiveTs (bkSweep.oppLevels Side.Buy) Side.Buy t1
          < passiveTs (bkSweep.oppLevels Side.Buy) Side.Buy t2)) :=
  claim_C7_price_time_priority bkSweep Side.Buy OrderType.Limit 10100 100
    ((bkSweep.add_order Side.Buy OrderType.Limit 10100 100).1.getD
      ⟨0, OrderStatus.New, 0, 0, []⟩)
    (bkSweep.add_order Side.Buy OrderType.Limit 10100 100).2
    (by decide) (by decide) (by decide) (by decide) (by decide) (by decide)

/-- Witness check for the amended C2. -/
theorem claim_C2_witness :
    bkOneAsk.pool.free_count ≠ 0 ∧
    ∃ b1, bkOneAsk.add_order Side.Buy OrderType.Limit 0 10 =
        (some ⟨2, OrderStatus.Active, 0, 10, []⟩, b1) ∧
      lookupIndex b1.orders 2 = some (Side.Buy, 0) ∧
      (∃ L, findLevel b1.bids 0 = some L ∧
        (⟨2, 0, 10, 0, Side.Buy, OrderType.Limit, OrderStatus.Active, 2⟩ : Order) ∈ L.queue) ∧
      b1.asks = bkOneAsk.asks ∧ b1.trade_count = bkOneAsk.trade_count ∧
      b1.total_volume = bkOneAsk.total_volume :=
  ⟨by decide, claim_C2_buy_price_zero_rests bkOneAsk 10 (by decide) (by decide)
      (by decide) (by decide)⟩

end LOB
